import Mathlib

/-!
# Verification of the graphql-js execution core (`src/execution/execute.ts`)

This file gives a shallow embedding of the execution core of the repository
and proves (or refutes) the frozen specification claims about it.

The embedding follows the source file `src/execution/execute.ts`.  Code of the
repository that is not under `src/` (the field collector, variable coercion,
`locatedError`, the `jsutils` promise helpers) is modelled from the
specification where a claim depends on it; each such definition carries a
doc comment beginning with `Modelled from the spec:`.

Conventions of the embedding:
* JavaScript `PromiseOrValue<T>` becomes the tagged union `PV`; a promise is
  represented by its settled outcome (`Except GErr value`), which is faithful
  for all value-observable properties (the sync fast path is observable via
  the tag).
* Mutable shared state (`exeContext.errors` and the dispatcher's pending
  payload list) is threaded explicitly: every executor function returns its
  answer together with the updated dispatcher list and the updated error
  list it was appending to.  Synchronous `throw` is the `.error` case of
  `Except`; state mutated before a throw persists, hence the state components
  are returned alongside the `Except`, never inside it.
* The outputs of the external field collector (`collectFields` /
  `collectSubfields`) are taken as input data: a collected selection `CSel`
  holds the grouped fields and the deferred patch records of spec §4.3.
-/

namespace GraphQL

/-- A response-path segment: a response name or a list index
    (`src/jsutils/Path.ts`, linearized form). -/
inductive Seg : Type where
  | key (k : String)
  | idx (i : Nat)
deriving Repr, DecidableEq

/-- The path cons-list of `src/jsutils/Path.ts`: `undefined` or
    `{ prev, key, typename }`.  The typename is diagnostic only. -/
inductive GPath : Type where
  | nil
  | node (prev : GPath) (key : Seg) (typename : Option String)
deriving Repr, DecidableEq

/-- `addPath(prev, key, typename)` of `src/jsutils/Path.ts`. -/
def addPath (prev : GPath) (key : Seg) (typename : Option String) : GPath :=
  GPath.node prev key typename

/-- `pathToArray(path)`: linearize a path into its ordered segments. -/
def pathToArray : GPath → List Seg
  | .nil => []
  | .node prev key _ => pathToArray prev ++ [key]

/-- A GraphQL error as observed by the claims: its message and its response
    path (`none` when the error has not been located yet). -/
structure GErr : Type where
  message : String
  path : Option (List Seg)
deriving Repr, DecidableEq

/-- Modelled from the spec: `locatedError` (`src/error/locatedError.ts`,
    absent from `src/`).  Spec §6: every error appended to the accumulator
    must have `path` set to the linearized failing path; an error that is
    already located keeps its own path. -/
def locatedError (e : GErr) (path : List Seg) : GErr :=
  match e.path with
  | some _ => e
  | none => { e with path := some path }

/-- A completed response value (spec §3, "Completed Value"). -/
inductive JVal : Type where
  | null
  | str (s : String)
  | arr (items : List JVal)
  | obj (fields : List (String × JVal))
deriving Repr

/-- A raw value produced by a resolver, driving completion.
    * `leaf ok s` : a leaf whose external `serialize` yields `s` when `ok`
       and `null` otherwise;
    * `error m` : an `Error` instance (thrown by `completeValue`, line 729);
    * `prom r` : a promise of `r` (a rejection is `prom (error m)`, which is
      observationally identical: both reject the completion). -/
inductive Raw : Type where
  | null
  | leaf (ok : Bool) (s : String)
  | list (items : List Raw)
  | obj (fields : List (String × Raw))
  | error (m : String)
  | prom (r : Raw)
deriving Repr

/-- The raw arguments of a `@stream` directive as produced by the external
    `getDirectiveValues`: the `if`, `initialCount` and `label` argument
    values (`none` models an absent / non-conforming argument). -/
structure StreamDirArgs : Type where
  ifArg : Option Bool
  initialCount : Option Int
  label : Option String
deriving Repr, DecidableEq

/-- An output type of the schema (spec §3): NonNull / List wrappers, a leaf
    (scalar or enum), or an object type with its name and field table. -/
inductive SType : Type where
  | nonNull (t : SType)
  | leafT
  | listT (t : SType)
  | objT (name : String) (table : List (String × SType))
deriving Repr

/-- `isNonNullType` (`src/type/definition.ts` predicate as used by
    `handleFieldError` and `completeValue`). -/
def isNonNullType : SType → Bool
  | .nonNull _ => true
  | _ => false

mutual
/-- A collected selection set: the output of the external field collector
    for one object value (spec §4.3) — the ordered field group plus the
    deferred patch records. -/
inductive CSel : Type where
  | mk (fields : List CField) (patches : List CPatch)
deriving Repr

/-- One entry of a field group: response name, field name, the `@stream`
    directive arguments present on the first field node (if any), and the
    collected sub-selection used when the field completes as an object. -/
inductive CField : Type where
  | mk (rname : String) (fname : String)
      (stream : Option StreamDirArgs) (subsel : CSel)
deriving Repr

/-- A deferred patch record (spec §3, "Patch Record"): optional label and
    the patch's own field group. -/
inductive CPatch : Type where
  | mk (label : Option String) (fields : List CField)
deriving Repr
end

def CSel.fields : CSel → List CField
  | .mk fs _ => fs

def CSel.patches : CSel → List CPatch
  | .mk _ ps => ps

def CField.rname : CField → String
  | .mk rn _ _ _ => rn

def CField.fname : CField → String
  | .mk _ fn _ _ => fn

def CField.stream : CField → Option StreamDirArgs
  | .mk _ _ st _ => st

def CField.subsel : CField → CSel
  | .mk _ _ _ sub => sub

def CPatch.label : CPatch → Option String
  | .mk l _ => l

def CPatch.fields : CPatch → List CField
  | .mk _ fs => fs

/-- JavaScript `PromiseOrValue<T>`: either a ready value or a promise,
    the promise represented by its settled outcome. -/
inductive PV (α : Type) : Type where
  | ready (a : α)
  | prom (settled : Except GErr α)
deriving Repr

/-- `isPromise` (`src/jsutils/isPromise.ts` as used by the executor). -/
def PV.isPromise : PV α → Bool
  | .ready _ => false
  | .prom _ => true

/-- The settled outcome of a `PromiseOrValue`: awaiting it. -/
def PV.settle : PV α → Except GErr α
  | .ready a => .ok a
  | .prom s => s

/-- A response object: insertion-ordered response-name/value pairs. -/
abbrev RespObj := List (String × JVal)

/-- One iterator pull outcome of an async iterator
    (`iterator.next()` resolving to `{value, done}` or rejecting). -/
inductive Pull : Type where
  | yield (r : Raw)
  | doneP
  | rejectP (m : String)
deriving Repr

/-- A pending payload recorded by the `Dispatcher` (lines 1419–1554):
    `addFields`, `addValue` and `addAsyncIteratorValue` each push one entry.
    The entry stores the data promise's settled outcome, the error list the
    payload will carry, the label and the linearized path. -/
inductive PEntry : Type where
  | fields (data : Except GErr (PV RespObj)) (errs : List GErr)
      (label : Option String) (path : List Seg)
  | value (path : List Seg) (data : Except GErr JVal) (errs : List GErr)
      (label : Option String)
  | asyncSeq (startIndex : Int) (pulls : List Pull) (label : Option String)
      (path : List Seg)
deriving Repr

/-- The dispatcher's pending-payload list (append-only during execution). -/
abbrev Disp := List PEntry

/-- `handleFieldError` (lines 681–696): a non-nullable return type rethrows
    the located error; otherwise the error is appended to the given error
    list and the field resolves to `null`. -/
def handleFieldError (error : GErr) (returnType : SType)
    (errors : List GErr) : Except GErr (List GErr) :=
  if isNonNullType returnType then
    .error error
  else
    .ok (errors ++ [error])

/-- `getStreamValues` (lines 817–848): returns the stream arguments unless
    the directive is absent or disabled via `if: false`; `initialCount` is
    kept only when it is a number, `label` only when it is a string. -/
def getStreamValues (stream : Option StreamDirArgs) :
    Option (Option Int × Option String) :=
  match stream with
  | none => none
  | some s =>
    if s.ifArg = some false then none
    else some (s.initialCount, s.label)

/-- The request-level context as far as the executor model consults it:
    the name of the schema's query root type (for `getFieldDef`'s
    introspection special-casing). -/
structure MCtx : Type where
  queryRootName : String
deriving Repr, DecidableEq

/-- A field definition as returned by `getFieldDef` (lines 1365–1386):
    either one of the three introspection meta-field definitions or an
    entry of the parent object type's field table. -/
inductive FieldDefM : Type where
  | metaSchema
  | metaType
  | metaTypename
  | norm (ty : SType)
deriving Repr

/-- Association-list lookup (JavaScript property access on an `ObjMap`). -/
def alookup (fields : List (String × α)) (k : String) : Option α :=
  match fields with
  | [] => none
  | (k', v) :: rest => if k' = k then some v else alookup rest k

/-- `getFieldDef` (lines 1365–1386): `__schema` and `__type` resolve to the
    schema meta-field definitions only on the query root type, `__typename`
    resolves on any parent, and every other name is looked up in the parent
    type's field table. -/
def getFieldDef (ctx : MCtx) (parentName : String)
    (table : List (String × SType)) (fieldName : String) : Option FieldDefM :=
  if fieldName = "__schema" ∧ ctx.queryRootName = parentName then
    some .metaSchema
  else if fieldName = "__type" ∧ ctx.queryRootName = parentName then
    some .metaType
  else if fieldName = "__typename" then
    some .metaTypename
  else
    (alookup table fieldName).map .norm

/-- `defaultFieldResolver` (lines 1342–1352) for data-valued sources: on an
    object-like source, take the property named by `info.fieldName`; any
    other source yields `undefined` (modelled as `Raw.null`, which completes
    identically). -/
def defaultFieldResolver (source : Raw) (fieldName : String) : Raw :=
  match source with
  | .obj fields =>
    match alookup fields fieldName with
    | some v => v
    | none => .null
  | _ => .null


/-- `buildResolveInfo` (lines 658–679) as far as completion consults it:
    the parent type name and the field name (used in error messages). -/
structure InfoM : Type where
  parentTypeName : String
  fieldName : String
deriving Repr, DecidableEq

/-- The field definition's return type.  The `__typename` meta field has
    type `String!`.  Modelled from the spec: the `__schema` and `__type`
    meta-field definitions live in `src/type/introspection.ts` (absent from
    `src/`); only their existence matters here, so they are modelled with
    opaque leaf results (`__Schema!` respectively nullable `__Type`). -/
def FieldDefM.type : FieldDefM → SType
  | .norm ty => ty
  | .metaTypename => .nonNull .leafT
  | .metaSchema => .nonNull .leafT
  | .metaType => .leafT

/-- The resolver of a field definition applied to the source value:
    field definitions of the model family have no own resolvers, so
    `defaultFieldResolver` applies; `__typename` resolves to the parent
    type's name.  Modelled from the spec: `__schema` / `__type` resolve
    against the schema's meta-field definitions (opaque here). -/
def FieldDefM.resolveValue : FieldDefM → String → Raw → String → Raw
  | .norm _, _, source, fieldName => defaultFieldResolver source fieldName
  | .metaTypename, parentName, _, _ => .leaf true parentName
  | .metaSchema, _, _, _ => .leaf true "__schema"
  | .metaType, _, _, _ => .leaf true "__type"

/-- `Promise.resolve`: awaiting a promise-or-value one level. -/
def Raw.resolve1 : Raw → Raw
  | .prom r => r
  | r => r

/-- The settled outcome of a possibly-throwing completion:
    a synchronous throw and a rejected promise both reject. -/
def settleCompletion : Except GErr (PV JVal) → Except GErr JVal
  | .error e => .error e
  | .ok pv => pv.settle

/-- The rejection handler `(rawError) => handleFieldError(locatedError(
    rawError, fieldNodes, pathToArray(path)), type, errors)` attached with
    `.then(undefined, …)` (lines 643–646, 1034–1041): on a fulfilled
    promise it passes the value through; on a rejection it locates the
    error and applies `handleFieldError`; a rethrow keeps the promise
    rejected, otherwise the promise fulfills with `null`. -/
def attachErrorHandler (settled : Except GErr JVal) (returnType : SType)
    (path : GPath) (errors : List GErr) : PV JVal × List GErr :=
  match settled with
  | .ok v => (.prom (.ok v), errors)
  | .error rawError =>
    let e := locatedError rawError (pathToArray path)
    match handleFieldError e returnType errors with
    | .error e' => (.prom (.error e'), errors)
    | .ok errors' => (.prom (.ok .null), errors')

/-- `promiseForObject` / `Promise.all` one step at a time: prepend a
    possibly-pending value to a possibly-pending list; any promise taints
    the result, and the earliest rejection wins. -/
def pvCons (pv : PV α) (rest : PV (List α)) : PV (List α) :=
  match pv, rest with
  | .ready v, .ready r => .ready (v :: r)
  | _, _ =>
    match pv.settle with
    | .error e => .prom (.error e)
    | .ok v =>
      match rest.settle with
      | .error e => .prom (.error e)
      | .ok r => .prom (.ok (v :: r))

/-- Map over a ready or settled value. -/
def PV.mapv (f : α → β) : PV α → PV β
  | .ready a => .ready (f a)
  | .prom (.ok a) => .prom (.ok (f a))
  | .prom (.error e) => .prom (.error e)

/-- The `@stream` guard of `completeListValue` / `completeAsyncIteratorValue`
    (lines 867–871, 988–992): the directive applies, its `initialCount` is a
    number, and the element index has reached it. -/
def streamActive (stream : Option (Option Int × Option String))
    (index : Nat) : Bool :=
  match stream with
  | some (some n, _) => n ≤ (index : Int)
  | _ => false

/-- The label carried by active stream values. -/
def streamLabel (stream : Option (Option Int × Option String)) :
    Option String :=
  match stream with
  | some (_, l) => l
  | none => none

theorem sizeOf_subsel_lt (cf : CField) : sizeOf cf.subsel < sizeOf cf := by
  cases cf with
  | mk rn fn st sub => simp [CField.subsel] <;> omega

theorem sizeOf_fields_lt (s : CSel) : sizeOf s.fields < sizeOf s := by
  cases s with
  | mk fs ps => simp [CSel.fields] <;> omega

theorem sizeOf_patches_lt (s : CSel) : sizeOf s.patches < sizeOf s := by
  cases s with
  | mk fs ps => simp [CSel.patches] <;> omega

theorem sizeOf_pfields_lt (p : CPatch) : sizeOf p.fields < sizeOf p := by
  cases p with
  | mk l fs => simp [CPatch.fields] <;> omega

/-- `containsPromise ? Promise.all(completedResults) : completedResults`
    (line 1053) composed element-wise. -/
def combineList (pvs : List (PV JVal)) : PV (List JVal) :=
  match pvs with
  | [] => .ready []
  | pv :: rest => pvCons pv (combineList rest)

/-- `result == null` (line 754): JavaScript loose equality with null
    (null or undefined; the model folds undefined into `Raw.null`). -/
def isNullish : Raw → Bool
  | .null => true
  | _ => false

/-- `completeLeafValue` (lines 1060–1072): serialize the leaf; a nullish
    serialization throws.  The model family's `serialize` yields the carried
    string on `leaf true` and `null` otherwise. -/
def completeLeafValue (result : Raw) : Except GErr JVal :=
  match result with
  | .leaf true s => .ok (.str s)
  | _ => .error ⟨"Expected serialize to return non-nullable value.", none⟩

mutual

/-- `completeValue` (lines 719–810): raise `Error` results; complete
    NonNull types for the inner type and throw when the completion is
    `null`; return `null` for nullish results; dispatch to list, leaf and
    object completion.  (Abstract types are verified separately; the model
    family of schemas has no `isTypeOf` predicates, so `completeObjectValue`
    coincides with `collectAndExecuteSubfields`, lines 1245–1288.) -/
def completeValue (ctx : MCtx) (returnType : SType) (cf : CField)
    (info : InfoM) (path : GPath) (result : Raw) (disp : Disp)
    (errors : List GErr) : Except GErr (PV JVal) × Disp × List GErr :=
  match result with
  | .error m => (.error ⟨m, none⟩, disp, errors)
  | _ =>
    match returnType with
    | .nonNull t =>
      match completeValue ctx t cf info path result disp errors with
      | (.error e, disp, errors) => (.error e, disp, errors)
      | (.ok (.ready .null), disp, errors) =>
        (.error ⟨"Cannot return null for non-nullable field " ++
          info.parentTypeName ++ "." ++ info.fieldName ++ ".", none⟩,
          disp, errors)
      | (.ok pv, disp, errors) => (.ok pv, disp, errors)
    | .listT t =>
      if isNullish result then (.ok (.ready .null), disp, errors)
      else completeListValue ctx t cf info path result disp errors
    | .leafT =>
      if isNullish result then (.ok (.ready .null), disp, errors)
      else
        match completeLeafValue result with
        | .ok v => (.ok (.ready v), disp, errors)
        | .error e => (.error e, disp, errors)
    | .objT name table =>
      if isNullish result then (.ok (.ready .null), disp, errors)
      else collectAndExecuteSubfields ctx name table cf result path disp errors
termination_by (sizeOf cf, 1, 3 * sizeOf returnType, 0)
decreasing_by
  · apply Prod.Lex.right
    apply Prod.Lex.right
    apply Prod.Lex.left
    simp <;> omega
  · apply Prod.Lex.right
    apply Prod.Lex.right
    apply Prod.Lex.left
    simp <;> omega
  · apply Prod.Lex.right
    apply Prod.Lex.right
    apply Prod.Lex.left
    simp <;> omega

/-- `completeObjectValue` / `collectAndExecuteSubfields` (lines 1188–1288)
    for the model family (no `isTypeOf` predicates): execute the collected
    sub-selection, then dispatch the deferred sub-patches. -/
def collectAndExecuteSubfields (ctx : MCtx) (name : String)
    (table : List (String × SType)) (cf : CField) (result : Raw)
    (path : GPath) (disp : Disp) (errors : List GErr) :
    Except GErr (PV JVal) × Disp × List GErr :=
  match executeFields ctx name table cf.subsel.fields result path disp
      errors with
  | (.error e, disp, errors) => (.error e, disp, errors)
  | (.ok subPV, disp, errors) =>
    match runSubPatches ctx name table cf.subsel.patches result path disp with
    | (.error e, disp) => (.error e, disp, errors)
    | (.ok _, disp) => (.ok (subPV.mapv JVal.obj), disp, errors)
termination_by (sizeOf cf, 1, 1, 0)
decreasing_by
  · apply Prod.Lex.left
    exact (sizeOf_fields_lt cf.subsel).trans (sizeOf_subsel_lt cf)
  · apply Prod.Lex.left
    exact (sizeOf_patches_lt cf.subsel).trans (sizeOf_subsel_lt cf)

/-- `Dispatcher.addValue` (lines 1433–1467): complete the raw element
    against a fresh error list, apply the rejection handler (a rethrow for a
    non-null element type leaves the payload promise rejected), and record
    the pending patch with the element's path, data, error list and label. -/
def addValueM (ctx : MCtx) (itemType : SType) (cf : CField) (info : InfoM)
    (itemPath : GPath) (item : Raw) (label : Option String) (disp : Disp) :
    Disp :=
  let (c, disp, freshErrs) :=
    completeValue ctx itemType cf info itemPath item.resolve1 disp []
  let (data, entryErrs) : Except GErr JVal × List GErr :=
    match settleCompletion c with
    | .ok v => (.ok v, freshErrs)
    | .error rawError =>
      let e := locatedError rawError (pathToArray itemPath)
      match handleFieldError e itemType freshErrs with
      | .error e' => (.error e', freshErrs)
      | .ok errs' => (.ok .null, errs')
  disp ++ [PEntry.value (pathToArray itemPath) data entryErrs label]
termination_by (sizeOf cf, 1, 3 * sizeOf itemType + 1, 0)
decreasing_by
  · apply Prod.Lex.right
    apply Prod.Lex.right
    apply Prod.Lex.left
    omega

/-- The element loop of `completeListValue` (lines 978–1051): elements at
    active stream indices are handed to `Dispatcher.addValue`; other
    elements are completed at `path[index]`, promised elements get the
    rejection handler, and a synchronous per-element throw is converted by
    `handleFieldError` (rethrowing out of the loop for non-null element
    types). -/
def completeListItems (ctx : MCtx) (itemType : SType) (cf : CField)
    (info : InfoM) (path : GPath)
    (stream : Option (Option Int × Option String)) (items : List Raw)
    (index : Nat) (disp : Disp) (errors : List GErr) :
    Except GErr (List (PV JVal)) × Disp × List GErr :=
  match items with
  | [] => (.ok [], disp, errors)
  | item :: rest =>
    let itemPath := addPath path (.idx index) none
    if streamActive stream index then
      let disp := addValueM ctx itemType cf info itemPath item
        (streamLabel stream) disp
      completeListItems ctx itemType cf info path stream rest (index + 1)
        disp errors
    else
      match completeOneItem ctx itemType cf info itemPath item disp errors with
      | (.error e, disp, errors) => (.error e, disp, errors)
      | (.ok pv, disp, errors) =>
        match completeListItems ctx itemType cf info path stream rest
            (index + 1) disp errors with
        | (.error e, disp, errors) => (.error e, disp, errors)
        | (.ok pvs, disp, errors) => (.ok (pv :: pvs), disp, errors)
termination_by (sizeOf cf, 1, 3 * sizeOf itemType + 1, items.length + 1)
decreasing_by
  all_goals first
    | (apply Prod.Lex.right
       apply Prod.Lex.right
       apply Prod.Lex.left
       omega)
    | (apply Prod.Lex.right
       apply Prod.Lex.right
       apply Prod.Lex.right
       simp <;> omega)

/-- One element of the list loop (lines 1005–1049): a promised element is
    completed after settling and gets the rejection handler; a plain
    element's promised completion gets the rejection handler too; a
    synchronous completion throw is located and fed to `handleFieldError`,
    recording `null` for a nullable element type and rethrowing out of the
    loop otherwise. -/
def completeOneItem (ctx : MCtx) (itemType : SType) (cf : CField)
    (info : InfoM) (itemPath : GPath) (item : Raw) (disp : Disp)
    (errors : List GErr) : Except GErr (PV JVal) × Disp × List GErr :=
  match item with
  | .prom inner =>
    let (c, disp, errors) :=
      completeValue ctx itemType cf info itemPath inner disp errors
    let (pv, errors) :=
      attachErrorHandler (settleCompletion c) itemType itemPath errors
    (.ok pv, disp, errors)
  | _ =>
    match completeValue ctx itemType cf info itemPath item disp errors with
    | (.ok pv, disp, errors) =>
      if pv.isPromise then
        let (pv, errors) := attachErrorHandler pv.settle itemType itemPath
          errors
        (.ok pv, disp, errors)
      else (.ok pv, disp, errors)
    | (.error rawError, disp, errors) =>
      let e := locatedError rawError (pathToArray itemPath)
      match handleFieldError e itemType errors with
      | .error e' => (.error e', disp, errors)
      | .ok errors' => (.ok (.ready .null), disp, errors')
termination_by (sizeOf cf, 1, 3 * sizeOf itemType + 1, 0)
decreasing_by
  all_goals
    apply Prod.Lex.right
    apply Prod.Lex.right
    apply Prod.Lex.left
    omega

/-- `completeListValue` (lines 943–1054) for synchronous iterables: a
    non-iterable source throws `Expected Iterable`; otherwise the elements
    are completed in order and combined, `Promise.all`-style, when any
    element is pending.  (The model family has no async-iterable resolver
    values; `completeAsyncIteratorValue` is embedded separately.) -/
def completeListValue (ctx : MCtx) (itemType : SType) (cf : CField)
    (info : InfoM) (path : GPath) (result : Raw) (disp : Disp)
    (errors : List GErr) : Except GErr (PV JVal) × Disp × List GErr :=
  match result with
  | .list items =>
    let stream := getStreamValues cf.stream
    match completeListItems ctx itemType cf info path stream items 0 disp
        errors with
    | (.error e, disp, errors) => (.error e, disp, errors)
    | (.ok pvs, disp, errors) =>
      (.ok ((combineList pvs).mapv JVal.arr), disp, errors)
  | _ =>
    (.error ⟨"Expected Iterable, but did not find one for field \"" ++
      info.parentTypeName ++ "." ++ info.fieldName ++ "\".", none⟩,
      disp, errors)
termination_by (sizeOf cf, 1, 3 * sizeOf itemType + 2, 0)
decreasing_by
  · apply Prod.Lex.right
    apply Prod.Lex.right
    apply Prod.Lex.left
    omega

/-- `executeField` (lines 573–653): look up the field definition (skipping
    the field when there is none), resolve the raw value, complete it —
    promised results are completed after settling — and guard the
    completion: promised completions get the rejection handler, and a
    synchronous throw is located and fed to `handleFieldError` (whose
    rethrow escapes `executeField`). -/
def executeField (ctx : MCtx) (parentName : String)
    (table : List (String × SType)) (source : Raw) (cf : CField)
    (path : GPath) (disp : Disp) (errors : List GErr) :
    Except GErr (Option (PV JVal)) × Disp × List GErr :=
  match getFieldDef ctx parentName table cf.fname with
  | none => (.ok none, disp, errors)
  | some fieldDef =>
    let returnType := fieldDef.type
    let info : InfoM := ⟨parentName, cf.fname⟩
    let result := fieldDef.resolveValue parentName source cf.fname
    match result with
    | .prom inner =>
      let (c, disp, errors) :=
        completeValue ctx returnType cf info path inner disp errors
      let (pv, errors) :=
        attachErrorHandler (settleCompletion c) returnType path errors
      (.ok (some pv), disp, errors)
    | _ =>
      match completeValue ctx returnType cf info path result disp errors with
      | (.ok pv, disp, errors) =>
        if pv.isPromise then
          let (pv, errors) :=
            attachErrorHandler pv.settle returnType path errors
          (.ok (some pv), disp, errors)
        else
          (.ok (some pv), disp, errors)
      | (.error rawError, disp, errors) =>
        let e := locatedError rawError (pathToArray path)
        match handleFieldError e returnType errors with
        | .error e' => (.error e', disp, errors)
        | .ok errors' => (.ok (some (.ready .null)), disp, errors')
termination_by (sizeOf cf, 2, 0, 0)
decreasing_by
  all_goals
    apply Prod.Lex.right
    apply Prod.Lex.left
    omega

/-- `executeFields` (lines 526–565): execute each grouped field at
    `addPath(path, responseName, parentType.name)`, skip `undefined`
    results, keep insertion order, and return the plain object unless some
    field result is a promise (then `promiseForObject`). -/
def executeFields (ctx : MCtx) (parentName : String)
    (table : List (String × SType)) (fields : List CField) (source : Raw)
    (path : GPath) (disp : Disp) (errors : List GErr) :
    Except GErr (PV RespObj) × Disp × List GErr :=
  match fields with
  | [] => (.ok (.ready []), disp, errors)
  | cf :: rest =>
    let fieldPath := addPath path (.key cf.rname) (some parentName)
    match executeField ctx parentName table source cf fieldPath disp errors with
    | (.error e, disp, errors) => (.error e, disp, errors)
    | (.ok res, disp, errors) =>
      match executeFields ctx parentName table rest source path disp errors with
      | (.error e, disp, errors) => (.error e, disp, errors)
      | (.ok pvRest, disp, errors) =>
        match res with
        | none => (.ok pvRest, disp, errors)
        | some pv => (.ok (pvCons (pv.mapv (cf.rname, ·)) pvRest), disp, errors)
termination_by (sizeOf fields, 0, 0, 0)
decreasing_by
  all_goals
    apply Prod.Lex.left
    simp <;> omega

/-- The sub-patch loop of `collectAndExecuteSubfields` (lines 1269–1285):
    each deferred sub-patch executes its field group against a fresh error
    list and `Dispatcher.addFields` records the result together with that
    same list; a synchronous throw escapes the loop. -/
def runSubPatches (ctx : MCtx) (parentName : String)
    (table : List (String × SType)) (patches : List CPatch) (source : Raw)
    (path : GPath) (disp : Disp) : Except GErr Unit × Disp :=
  match patches with
  | [] => (.ok (), disp)
  | p :: rest =>
    match executeFields ctx parentName table p.fields source path disp [] with
    | (.error e, disp, _) => (.error e, disp)
    | (.ok res, disp, subErrs) =>
      let disp := disp ++
        [PEntry.fields (.ok res) subErrs p.label (pathToArray path)]
      runSubPatches ctx parentName table rest source path disp
termination_by (sizeOf patches, 0, 0, 0)
decreasing_by
  · apply Prod.Lex.left
    have h := sizeOf_pfields_lt p
    simp <;> omega
  · apply Prod.Lex.left
    simp <;> omega

end

/-- `executeFieldsSerially` (lines 487–520) over the spec-modelled promise
    chaining of `jsutils/promiseReduce` (absent from `src/`; spec §4.6: each
    next field begins only after the prior field's value, including any
    future, has resolved; a rejected accumulator skips the remaining
    callbacks).  `promised` records whether the accumulator has become a
    promise: a later synchronous throw then rejects the accumulator instead
    of escaping, and `undefined` field results leave the accumulator
    untouched. -/
def executeFieldsSerially (ctx : MCtx) (parentName : String)
    (table : List (String × SType)) (source : Raw) (path : GPath)
    (fields : List CField) (promised : Bool) (disp : Disp)
    (errors : List GErr) : Except GErr (PV RespObj) × Disp × List GErr :=
  match fields with
  | [] => (.ok (if promised then .prom (.ok []) else .ready []), disp, errors)
  | cf :: rest =>
    let fieldPath := addPath path (.key cf.rname) (some parentName)
    match executeField ctx parentName table source cf fieldPath disp errors with
    | (.error e, disp, errors) =>
      if promised then (.ok (.prom (.error e)), disp, errors)
      else (.error e, disp, errors)
    | (.ok none, disp, errors) =>
      executeFieldsSerially ctx parentName table source path rest promised
        disp errors
    | (.ok (some pv), disp, errors) =>
      match pv with
      | .prom (.error e) => (.ok (.prom (.error e)), disp, errors)
      | .ready v =>
        match executeFieldsSerially ctx parentName table source path rest
            promised disp errors with
        | (.error e, disp, errors) => (.error e, disp, errors)
        | (.ok pvRest, disp, errors) =>
          (.ok (pvCons (.ready (cf.rname, v)) pvRest), disp, errors)
      | .prom (.ok v) =>
        match executeFieldsSerially ctx parentName table source path rest
            true disp errors with
        | (.error e, disp, errors) => (.error e, disp, errors)
        | (.ok pvRest, disp, errors) =>
          (.ok (pvCons (.prom (.ok (cf.rname, v))) pvRest), disp, errors)

/-- The root patch loop of `executeOperation` (lines 461–478): for each
    collected root patch a fresh error list is created, but `executeFields`
    receives `exeContext.errors` — the main error accumulator — while
    `Dispatcher.addFields` records the patch with the fresh (hence empty)
    list. -/
def runRootPatches (ctx : MCtx) (rootName : String)
    (table : List (String × SType)) (patches : List CPatch) (rootValue : Raw)
    (path : GPath) (disp : Disp) (errors : List GErr) :
    Except GErr Unit × Disp × List GErr :=
  match patches with
  | [] => (.ok (), disp, errors)
  | p :: rest =>
    match executeFields ctx rootName table p.fields rootValue path disp
        errors with
    | (.error e, disp, errors) => (.error e, disp, errors)
    | (.ok res, disp, errors) =>
      let disp := disp ++
        [PEntry.fields (.ok res) [] p.label (pathToArray path)]
      runRootPatches ctx rootName table rest rootValue path disp errors

/-- The operation kinds of `OperationTypeNode`. -/
inductive OpKind : Type where
  | query
  | mutation
  | subscription
deriving Repr, DecidableEq

/-- `executeOperation` (lines 405–481): root fields execute in parallel for
    queries and subscriptions and serially for mutations, then the collected
    root patches are dispatched.  A synchronous throw from the main group
    escapes before the patch loop.  (The root type lookup and the root
    `collectFields` call are external; their outputs — root type name, field
    table, collected selection — are the inputs here.) -/
def executeOperation (ctx : MCtx) (opKind : OpKind) (rootName : String)
    (rootTable : List (String × SType)) (rootSel : CSel) (rootValue : Raw)
    (disp : Disp) (errors : List GErr) :
    Except GErr (PV RespObj) × Disp × List GErr :=
  let path := GPath.nil
  let step :=
    match opKind with
    | .query | .subscription =>
      executeFields ctx rootName rootTable rootSel.fields rootValue path
        disp errors
    | .mutation =>
      executeFieldsSerially ctx rootName rootTable rootValue path
        rootSel.fields false disp errors
  match step with
  | (.error e, disp, errors) => (.error e, disp, errors)
  | (.ok pv, disp, errors) =>
    match runRootPatches ctx rootName rootTable rootSel.patches rootValue
        path disp errors with
    | (.error e, disp, errors) => (.error e, disp, errors)
    | (.ok _, disp, errors) => (.ok pv, disp, errors)

/-- The `data` slot of an execution result: absent (context build failed),
    `null`, or an object. -/
inductive DataOut : Type where
  | absent
  | nullData
  | objData (r : RespObj)
deriving Repr

/-- `ExecutionResult` as observed by the claims; `buildResponse` (lines
    289–294) omits the `errors` key when the list is empty, modelled by the
    empty list. -/
structure ExecResultM : Type where
  errors : List GErr
  data : DataOut
deriving Repr

/-- What `execute` hands back once settled: a plain result or — when the
    dispatcher has subsequent payloads — the async iterable produced by
    `Dispatcher.get` together with its pending payloads. -/
inductive SyncOut : Type where
  | res (r : ExecResultM)
  | seq (initial : ExecResultM) (pending : Disp)
deriving Repr

/-- The observable of `execute` (lines 212–267): a synchronous return or a
    promise of the same shapes (`isPromise` distinguishes the two,
    `isAsyncIterable` distinguishes `seq`). -/
inductive ExecOutM : Type where
  | now (o : SyncOut)
  | later (o : SyncOut)
deriving Repr

/-- `buildResponse` (lines 289–294). -/
def buildResponse (data : Option RespObj) (errors : List GErr) :
    ExecResultM :=
  { errors := errors,
    data := match data with
            | none => .nullData
            | some r => .objData r }

/-- `execute` (lines 212–267) after a successful context build: run the
    operation; on a synchronous throw push the error and answer
    `{data: null, errors}`; otherwise build the response (a promised
    operation result makes the whole return a promise, settled here) and
    return the dispatcher's sequence instead when subsequent payloads are
    pending. -/
def executeWithContext (ctx : MCtx) (opKind : OpKind) (rootName : String)
    (rootTable : List (String × SType)) (rootSel : CSel) (rootValue : Raw) :
    ExecOutM :=
  match executeOperation ctx opKind rootName rootTable rootSel rootValue
      [] [] with
  | (.error e, _, errors) =>
    .now (.res (buildResponse none (errors ++ [e])))
  | (.ok (.ready data), disp, errors) =>
    let initialResult := buildResponse (some data) errors
    if disp.isEmpty then .now (.res initialResult)
    else .now (.seq initialResult disp)
  | (.ok (.prom (.ok data)), disp, errors) =>
    let initialResult := buildResponse (some data) errors
    if disp.isEmpty then .later (.res initialResult)
    else .later (.seq initialResult disp)
  | (.ok (.prom (.error e)), _, errors) =>
    .later (.res (buildResponse none (errors ++ [e])))

/-- `executeSync` (lines 274–283): return `execute`'s result unchanged
    unless it is a promise or an async iterable, in which case throw. -/
def executeSyncM (result : ExecOutM) : Except String ExecResultM :=
  match result with
  | .now (.res r) => .ok r
  | _ => .error "GraphQL execution failed to complete synchronously."

/-- A definition of the request document as `buildExecutionContext` scans
    it: an operation definition (optional name, kind, and the collected
    selection standing for its selection set) or a fragment definition. -/
inductive DefnNode : Type where
  | operation (name : Option String) (kind : OpKind) (sel : CSel)
  | fragment (name : String)

/-- The document scan of `buildExecutionContext` (lines 342–371): with no
    requested name, a second operation definition fails immediately; with a
    requested name, each matching definition is selected; afterwards a
    missing operation fails. -/
def findOperation (defs : List DefnNode) (operationName : Option String)
    (acc : Option (OpKind × CSel)) :
    Except (List GErr) (OpKind × CSel) :=
  match defs with
  | [] =>
    match acc with
    | some op => .ok op
    | none =>
      match operationName with
      | some n =>
        .error [⟨"Unknown operation named \"" ++ n ++ "\".", none⟩]
      | none => .error [⟨"Must provide an operation.", none⟩]
  | .operation name kind sel :: rest =>
    match operationName with
    | none =>
      if acc.isSome then
        .error [⟨"Must provide operation name if query contains multiple operations.",
          none⟩]
      else
        findOperation rest none (some (kind, sel))
    | some n =>
      if name = some n then findOperation rest (some n) (some (kind, sel))
      else findOperation rest (some n) acc
  | .fragment _ :: rest => findOperation rest operationName acc

/-- Modelled from the spec: `getVariableValues` (`src/execution/values.ts`,
    absent from `src/`), called with `{ maxErrors: 50 }` (line 380).  Spec
    §4.5: variable coercion surfaces up to 50 errors; on any coercion error
    the builder receives the error list instead of coerced variables.  The
    per-variable coercion errors are the model's input. -/
def getVariableValuesM (varErrors : List GErr) : Except (List GErr) Unit :=
  if varErrors.isEmpty then .ok () else .error (varErrors.take 50)

/-- `buildExecutionContext` (lines 327–400): scan the document for the
    requested operation, then coerce the variables; any failure yields the
    error list instead of a context. -/
def buildExecutionContextM (defs : List DefnNode)
    (operationName : Option String) (varErrors : List GErr) :
    Except (List GErr) (OpKind × CSel) :=
  match findOperation defs operationName none with
  | .error errs => .error errs
  | .ok op =>
    match getVariableValuesM varErrors with
    | .error errs => .error errs
    | .ok _ => .ok op

/-- `execute` (lines 212–267) from the top: a failed context build returns
    `{ errors }` — with no `data` key — before any field executes. -/
def executeTop (ctx : MCtx) (defs : List DefnNode)
    (operationName : Option String) (varErrors : List GErr)
    (rootName : String) (rootTable : List (String × SType))
    (rootValue : Raw) : ExecOutM :=
  match buildExecutionContextM defs operationName varErrors with
  | .error errs => .now (.res { errors := errs, data := .absent })
  | .ok (kind, sel) =>
    executeWithContext ctx kind rootName rootTable sel rootValue

/-- `Promise.all(completedResults)` over the element list: the earliest
    rejected element rejects the whole list, otherwise all settled values
    are collected (a promise-free list is returned as-is, which coincides). -/
def settleAll : List (PV JVal) → Except GErr (List JVal)
  | [] => .ok []
  | pv :: rest =>
    match pv.settle with
    | .error e => .error e
    | .ok v =>
      match settleAll rest with
      | .error e => .error e
      | .ok vs => .ok (v :: vs)

/-- The pull loop of `completeAsyncIteratorValue` (lines 854–937), the
    iterator given by its pull outcomes.  At an active stream index the
    remaining pulls are handed to `Dispatcher.addAsyncIteratorValue` and the
    accumulated list resolves.  A `done` pull resolves the accumulated list.
    A pull rejection or a synchronous per-element completion throw records
    `null` for the element, feeds the located error to `handleFieldError`
    and resolves; when `handleFieldError` rethrows (non-null element type)
    the throw escapes the callback and the promise never resolves (`none`).
    Resolution fixes the result: the source keeps pulling after a caught
    per-element throw, but the resolved value is already fixed. -/
def completeAsyncIteratorItems (ctx : MCtx) (itemType : SType) (cf : CField)
    (info : InfoM) (path : GPath) (pulls : List Pull) (index : Nat)
    (acc : List (PV JVal)) (disp : Disp) (errors : List GErr) :
    Option (List (PV JVal)) × Disp × List GErr :=
  let stream := getStreamValues cf.stream
  if streamActive stream index then
    let disp := disp ++
      [PEntry.asyncSeq (index : Int) pulls (streamLabel stream)
        (pathToArray path)]
    (some acc, disp, errors)
  else
    match pulls with
    | [] => (some acc, disp, errors)
    | .doneP :: _ => (some acc, disp, errors)
    | .rejectP m :: _ =>
      let fieldPath := addPath path (.idx index) none
      let acc := acc ++ [.ready .null]
      let e := locatedError ⟨m, none⟩ (pathToArray fieldPath)
      match handleFieldError e itemType errors with
      | .error _ => (none, disp, errors)
      | .ok errors' => (some acc, disp, errors')
    | .yield v :: rest =>
      let fieldPath := addPath path (.idx index) none
      match completeValue ctx itemType cf info fieldPath v disp errors with
      | (.ok pv, disp, errors) =>
        completeAsyncIteratorItems ctx itemType cf info path rest (index + 1)
          (acc ++ [pv]) disp errors
      | (.error rawError, disp, errors) =>
        let acc := acc ++ [.ready .null]
        let e := locatedError rawError (pathToArray fieldPath)
        match handleFieldError e itemType errors with
        | .error _ => (none, disp, errors)
        | .ok errors' => (some acc, disp, errors')

/-- `completeAsyncIteratorValue` (lines 854–937): run the pull loop from
    index `0` and apply the final
    `containsPromise ? Promise.all(completedResults) : completedResults`
    step (line 934–936); `none` models a promise that never resolves. -/
def completeAsyncIteratorValue (ctx : MCtx) (itemType : SType) (cf : CField)
    (info : InfoM) (path : GPath) (pulls : List Pull) (disp : Disp)
    (errors : List GErr) :
    Option (Except GErr (List JVal)) × Disp × List GErr :=
  match completeAsyncIteratorItems ctx itemType cf info path pulls 0 []
      disp errors with
  | (none, disp, errors) => (none, disp, errors)
  | (some acc, disp, errors) => (some (settleAll acc), disp, errors)

/-! ## The Dispatcher's async sequence (`_race` / `_next` / `get`) -/

/-- A pending payload future of the dispatcher, abstracted over the payload
    type: its identity (`fid`), the instant it settles, and its settled
    iterator result — `some v` for `{value: v, done: false}`, `none` for the
    terminal `{done: true}` signal of an exhausted async iterator. -/
structure PendFut (α : Type) : Type where
  fid : Nat
  settleAt : Nat
  res : Option α
deriving Repr, DecidableEq

/-- The winner of racing the pending futures: the first to settle — the
    earliest `settleAt`, the earlier list position winning ties (the race
    continuations are attached in list order, line 1560). -/
def firstToSettle : List (PendFut α) → Option (PendFut α)
  | [] => none
  | f :: rest =>
    match firstToSettle rest with
    | none => some f
    | some g => if f.settleAt ≤ g.settleAt then some f else some g

/-- `this._subsequentPayloads.splice(this._subsequentPayloads.indexOf(p), 1)`
    (lines 1569–1572): remove the first entry with the winning future's
    identity. -/
def spliceOut (pending : List (PendFut α)) (fid : Nat) :
    List (PendFut α) :=
  pending.eraseP (fun g => g.fid = fid)

/-- One emitted element of the dispatcher's async sequence. -/
inductive DItem (α β : Type) : Type where
  | initialRes (r : β) (hasNext : Bool)
  | patchRes (v : α) (hasNext : Bool)
  | bare (hasNext : Bool)
deriving Repr, DecidableEq

/-- One `next()` outcome: an emitted value or iterator termination. -/
inductive DStep (α β : Type) : Type where
  | val (item : DItem α β)
  | doneIter
deriving Repr, DecidableEq

theorem firstToSettle_mem {l : List (PendFut α)} {f : PendFut α}
    (h : firstToSettle l = some f) : f ∈ l := by
  induction l with
  | nil => simp [firstToSettle] at h
  | cons g rest ih =>
    rw [firstToSettle] at h
    cases hr : firstToSettle rest with
    | none => rw [hr] at h; simp at h; simp [h]
    | some w =>
      rw [hr] at h
      by_cases hle : g.settleAt ≤ w.settleAt
      · simp [hle] at h; simp [h]
      · simp [hle] at h
        exact List.mem_cons_of_mem _ (ih (h ▸ hr))

theorem spliceOut_length_lt {l : List (PendFut α)} {f : PendFut α}
    (hmem : f ∈ l) : (spliceOut l f.fid).length < l.length := by
  have : (l.eraseP (fun g => g.fid = f.fid)).length + 1 = l.length :=
    List.length_eraseP_add_one (a := f) hmem (by simp)
  simp [spliceOut]
  omega

/-- `_race` (lines 1556–1598): race the pending futures, splice the first
    to settle out of the queue by identity, then: a terminal signal with an
    empty queue emits the final `{hasNext: false}`; a terminal signal with
    payloads still pending races again; a payload is emitted with
    `hasNext = (pending remaining > 0)`.  (`_race` is only invoked with a
    nonempty queue; the never-settling race of an empty queue is returned
    as `doneIter` here.) -/
def race (pending : List (PendFut α)) : DStep α β × List (PendFut α) :=
  match h : firstToSettle pending with
  | none => (.doneIter, pending)
  | some f =>
    let rest := spliceOut pending f.fid
    match f.res with
    | none =>
      if rest.isEmpty then (.val (.bare false), rest)
      else race rest
    | some v => (.val (.patchRes v (!rest.isEmpty)), rest)
termination_by pending.length
decreasing_by
  exact spliceOut_length_lt (firstToSettle_mem h)

/-- The dispatcher's iteration state underlying the async iterable returned
    by `get` (lines 1405–1626): the pending payload futures, the stored
    initial result and the `_hasReturnedInitialResult` flag. -/
structure DState (α β : Type) : Type where
  pending : List (PendFut α)
  initialResult : β
  hasReturnedInitial : Bool
deriving Repr, DecidableEq

/-- `get(initialResult)` (lines 1616–1626): store the initial result; the
    returned async iterable starts with the flag unset. -/
def dispatcherGet (pending : List (PendFut α)) (initialResult : β) :
    DState α β :=
  { pending := pending, initialResult := initialResult,
    hasReturnedInitial := false }

/-- `_next` (lines 1600–1614): the first call returns the initial result
    extended with `hasNext: true`; afterwards an empty queue terminates the
    iterator, and otherwise the pending futures race. -/
def dispatcherNext (st : DState α β) : DStep α β × DState α β :=
  if !st.hasReturnedInitial then
    (.val (.initialRes st.initialResult true),
      { st with hasReturnedInitial := true })
  else if st.pending.isEmpty then
    (.doneIter, st)
  else
    let (step, rest) := race st.pending
    (step, { st with pending := rest })

/-! ## Abstract-type completion (`completeAbstractValue` /
`ensureValidRuntimeType`) -/

/-- A named type of the schema as `ensureValidRuntimeType` inspects it:
    an Object type or some other named type. -/
inductive NamedTypeM : Type where
  | objNT (name : String)
  | otherNT (name : String)
deriving Repr, DecidableEq

/-- The schema surface consumed by abstract-type completion:
    `getType(name)` and `isSubType(abstract, object)`. -/
structure SchemaM : Type where
  types : List (String × NamedTypeM)
  isSubTypeB : String → String → Bool

/-- What `resolveType` / the default type resolver produced, as
    `ensureValidRuntimeType` discriminates it: a nullish value, a
    `GraphQLObjectType` instance (the removed legacy protocol), some other
    non-string value, or a type name. -/
inductive ResolvedTypeVal : Type where
  | nullish
  | objTypeInstance
  | nonStringV
  | strName (s : String)
deriving Repr, DecidableEq

/-- `ensureValidRuntimeType` (lines 1130–1183): the resolved value must be
    a string naming a type that exists in the schema, is an Object type and
    is a possible subtype of the abstract type; each violation throws a
    `GraphQLError`. -/
def ensureValidRuntimeType (schema : SchemaM) (abstractName : String)
    (info : InfoM) (runtimeTypeName : ResolvedTypeVal) :
    Except GErr String :=
  match runtimeTypeName with
  | .nullish =>
    .error ⟨"Abstract type \"" ++ abstractName ++
      "\" must resolve to an Object type at runtime for field \"" ++
      info.parentTypeName ++ "." ++ info.fieldName ++ "\". Either the \"" ++
      abstractName ++
      "\" type should provide a \"resolveType\" function or each possible type should provide an \"isTypeOf\" function.",
      none⟩
  | .objTypeInstance =>
    .error ⟨"Support for returning GraphQLObjectType from resolveType was removed in graphql-js@16.0.0 please return type name instead.",
      none⟩
  | .nonStringV =>
    .error ⟨"Abstract type \"" ++ abstractName ++
      "\" must resolve to an Object type at runtime for field \"" ++
      info.parentTypeName ++ "." ++ info.fieldName ++
      "\" with a non-string value.", none⟩
  | .strName s =>
    match alookup schema.types s with
    | none =>
      .error ⟨"Abstract type \"" ++ abstractName ++
        "\" was resolved to a type \"" ++ s ++
        "\" that does not exist inside the schema.", none⟩
    | some (.otherNT _) =>
      .error ⟨"Abstract type \"" ++ abstractName ++
        "\" was resolved to a non-object type \"" ++ s ++ "\".", none⟩
    | some (.objNT n) =>
      if schema.isSubTypeB abstractName n then .ok n
      else
        .error ⟨"Runtime Object type \"" ++ n ++
          "\" is not a possible type for \"" ++ abstractName ++ "\".",
          none⟩

/-- `completeAbstractValue` (lines 1078–1128), higher-order in the ensuing
    object completion: the resolved runtime type name (possibly a promise)
    is validated by `ensureValidRuntimeType` and completion proceeds as the
    named Object type; with a promised resolution the validation throw
    becomes a rejection. -/
def completeAbstractValue (schema : SchemaM) (abstractName : String)
    (info : InfoM) (runtimeType : PV ResolvedTypeVal)
    (completeObject : String → Except GErr β) : Except GErr (PV β) :=
  match runtimeType with
  | .prom s =>
    .ok (.prom (do
      let rt ← s
      let t ← ensureValidRuntimeType schema abstractName info rt
      completeObject t))
  | .ready rt =>
    match ensureValidRuntimeType schema abstractName info rt with
    | .error e => .error e
    | .ok t =>
      match completeObject t with
      | .error e => .error e
      | .ok b => .ok (.ready b)

/-! ## Serial mutation execution as an event trace -/

/-- An execution event: a root field's resolver is invoked, or the future
    it returned settles. -/
inductive EvB : Type where
  | invokeE (name : String)
  | settleE (name : String)
deriving Repr, DecidableEq

/-- A computation in the trace model: the events it emits synchronously
    when started (`now`), the events from then until its settlement
    (`rest`, empty for a synchronous computation), whether its result is a
    promise, and its settled value. -/
structure BComp (α : Type) : Type where
  now : List EvB
  rest : List EvB
  isAsync : Bool
  val : α
deriving Repr

/-- The already-settled computation. -/
def BComp.pureB (a : α) : BComp α := ⟨[], [], false, a⟩

/-- Modelled from the spec: promise sequencing (spec §4.2 value monad,
    §5 scheduling model) — a continuation chained onto a computation runs
    synchronously after it when it is ready, and only after its settlement
    events when it is a promise; chaining onto a promise yields a promise. -/
def thenB (x : BComp α) (k : α → BComp β) : BComp β :=
  let y := k x.val
  if x.isAsync then ⟨x.now, x.rest ++ y.now ++ y.rest, true, y.val⟩
  else ⟨x.now ++ x.rest ++ y.now, y.rest, y.isAsync, y.val⟩

/-- Modelled from the spec: `promiseReduce` (`src/jsutils/promiseReduce.ts`,
    absent from `src/`) — reduce the list, chaining each callback onto the
    accumulator (spec §4.6: each next field begins only after the prior
    field's value, including any future, has resolved). -/
def promiseReduceB (xs : List α) (cb : β → α → BComp β) (initial : β) :
    BComp β :=
  xs.foldl (fun acc x => thenB acc (fun b => cb b x)) (BComp.pureB initial)

/-- A mutation root field resolver in the trace model: whether it returns a
    future, and the value the field settles to. -/
structure BResolver : Type where
  isAsync : Bool
  val : JVal
deriving Repr

/-- One root field's execution in the trace model: invoking the resolver is
    the synchronous start; an asynchronous resolver settles afterwards. -/
def executeFieldB (rn : String) (r : BResolver) : BComp JVal :=
  { now := [.invokeE rn],
    rest := if r.isAsync then [.settleE rn] else [],
    isAsync := r.isAsync, val := r.val }

/-- `executeFieldsSerially` (lines 487–520) in the trace model:
    `promiseReduce` over the collected root fields; each callback executes
    the field and chains the accumulation of `results[responseName]` onto
    its result. -/
def executeFieldsSeriallyB (fields : List (String × BResolver)) :
    BComp (List (String × JVal)) :=
  promiseReduceB fields
    (fun results p =>
      thenB (executeFieldB p.1 p.2)
        (fun v => BComp.pureB (results ++ [(p.1, v)])))
    []

/-- The full chronological event stream of a computation. -/
def BComp.events (x : BComp α) : List EvB := x.now ++ x.rest

/-- The strictly serial trace: each field's invocation, followed by its
    settlement when it returned a future, before the next field's
    invocation. -/
def serialTrace : List (String × BResolver) → List EvB
  | [] => []
  | p :: rest =>
    .invokeE p.1 ::
      ((if p.2.isAsync then [.settleE p.1] else []) ++ serialTrace rest)

/-! ## Synchronous execution: no futures and no patches (for C2) -/

mutual
/-- No resolver value anywhere in the tree is a future. -/
def Raw.promFree : Raw → Bool
  | .null => true
  | .leaf _ _ => true
  | .error _ => true
  | .prom _ => false
  | .list items => promFreeList items
  | .obj fields => promFreeFields fields

def promFreeList : List Raw → Bool
  | [] => true
  | r :: rest => r.promFree && promFreeList rest

def promFreeFields : List (String × Raw) → Bool
  | [] => true
  | p :: rest => p.2.promFree && promFreeFields rest
end

mutual
/-- The collected selection carries no deferred patches and no `@stream`
    directives anywhere. -/
def CSel.plain : CSel → Bool
  | .mk fields patches => plainFields fields && patches.isEmpty

def plainFields : List CField → Bool
  | [] => true
  | .mk _ _ st sub :: rest => st.isNone && sub.plain && plainFields rest
end

/-- A field selection with no stream directive and a plain sub-selection. -/
def CField.plain : CField → Bool
  | .mk _ _ st sub => st.isNone && sub.plain

theorem promFreeFields_lookup {fields : List (String × Raw)} {n : String}
    {v : Raw} (h : promFreeFields fields = true)
    (hl : alookup fields n = some v) : v.promFree = true := by
  induction fields with
  | nil => simp [alookup] at hl
  | cons p rest ih =>
    rw [promFreeFields] at h
    simp only [Bool.and_eq_true] at h
    rw [alookup] at hl
    by_cases he : p.1 = n
    · rcases p with ⟨k, r⟩
      simp only at he
      rw [if_pos he] at hl
      cases hl
      exact h.1
    · rcases p with ⟨k, r⟩
      simp only at he
      rw [if_neg he] at hl
      exact ih h.2 hl

theorem defaultFieldResolver_promFree {source : Raw} {n : String}
    (h : source.promFree = true) :
    (defaultFieldResolver source n).promFree = true := by
  cases source with
  | obj fields =>
    rw [defaultFieldResolver]
    cases hl : alookup fields n with
    | none => rfl
    | some v =>
      rw [Raw.promFree] at h
      exact promFreeFields_lookup h hl
  | null => rfl
  | leaf ok s => rfl
  | list items => rfl
  | error m => rfl
  | prom r => rfl

theorem resolveValue_promFree (fdef : FieldDefM) (parentName : String)
    {source : Raw} (n : String) (h : source.promFree = true) :
    (fdef.resolveValue parentName source n).promFree = true := by
  cases fdef with
  | norm ty => exact defaultFieldResolver_promFree h
  | metaSchema => rfl
  | metaType => rfl
  | metaTypename => rfl

theorem CField_plain_parts {rn fn : String} {st : Option StreamDirArgs}
    {sub : CSel} (h : CField.plain (.mk rn fn st sub) = true) :
    st = none ∧ CSel.plain sub = true := by
  rw [CField.plain] at h
  simp only [Bool.and_eq_true, Option.isNone_iff_eq_none] at h
  exact h

theorem CSel_plain_parts {fields : List CField} {patches : List CPatch}
    (h : CSel.plain (.mk fields patches) = true) :
    plainFields fields = true ∧ patches = [] := by
  rw [CSel.plain] at h
  simp only [Bool.and_eq_true, List.isEmpty_iff] at h
  exact h

theorem PV_not_promise_ready {pv : PV α} (h : pv.isPromise = false) :
    ∃ a, pv = .ready a := by
  cases pv with
  | ready a => exact ⟨a, rfl⟩
  | prom s => simp [PV.isPromise] at h



theorem PV_mapv_isPromise (f : α → β) (pv : PV α) :
    (pv.mapv f).isPromise = pv.isPromise := by
  cases pv with
  | ready a => rfl
  | prom s => cases s <;> rfl

theorem pvCons_sync {pv : PV α} {rest : PV (List α)}
    (h1 : pv.isPromise = false) (h2 : rest.isPromise = false) :
    (pvCons pv rest).isPromise = false := by
  obtain ⟨a, rfl⟩ := PV_not_promise_ready h1
  obtain ⟨l, rfl⟩ := PV_not_promise_ready h2
  rfl

theorem combineList_sync {pvs : List (PV JVal)}
    (h : ∀ pv ∈ pvs, pv.isPromise = false) :
    (combineList pvs).isPromise = false := by
  induction pvs with
  | nil => rfl
  | cons pv rest ih =>
    rw [combineList]
    exact pvCons_sync (h pv (List.mem_cons_self _ _))
      (ih fun q hq => h q (List.mem_cons_of_mem _ hq))

theorem plainFields_cons (f : CField) (rest : List CField) :
    plainFields (f :: rest) = (CField.plain f && plainFields rest) := by
  cases f with
  | mk rn fn st sub => simp [plainFields, CField.plain, Bool.and_assoc]

mutual

theorem completeValue_sync (ctx : MCtx) (returnType : SType) (cf : CField)
    (info : InfoM) (path : GPath) (result : Raw) (disp : Disp)
    (errors : List GErr) (hcf : CField.plain cf = true)
    (hr : result.promFree = true) :
    (completeValue ctx returnType cf info path result disp errors).2.1
      = disp ∧
    ∀ pv, (completeValue ctx returnType cf info path result disp errors).1
      = .ok pv → pv.isPromise = false := by
  cases returnType with
  | nonNull t =>
    have hwrap : completeValue ctx (SType.nonNull t) cf info path result disp
        errors
      = (match completeValue ctx t cf info path result disp errors with
         | (.error e, disp, errors) => (.error e, disp, errors)
         | (.ok (.ready .null), disp, errors) =>
           (.error ⟨"Cannot return null for non-nullable field " ++
             info.parentTypeName ++ "." ++ info.fieldName ++ ".", none⟩,
             disp, errors)
         | (.ok pv, disp, errors) => (.ok pv, disp, errors)) := by
      cases result with
      | error m =>
        rw [completeValue.eq_def]
        conv_rhs => rw [completeValue.eq_def]
      | null => rw [completeValue.eq_def]
      | leaf ok s => rw [completeValue.eq_def]
      | list items => rw [completeValue.eq_def]
      | obj fields => rw [completeValue.eq_def]
      | prom r => rw [completeValue.eq_def]
    rw [hwrap]
    have ih := completeValue_sync ctx t cf info path result disp errors hcf hr
    rcases hin : completeValue ctx t cf info path result disp errors
      with ⟨c, d, er⟩
    rw [hin] at ih
    cases c with
    | error e => exact ⟨ih.1, by intro pv h; simp at h⟩
    | ok pv =>
      have hsync := ih.2 pv rfl
      obtain ⟨a, rfl⟩ := PV_not_promise_ready hsync
      cases a with
      | null => exact ⟨ih.1, by intro pv h; simp at h⟩
      | str s =>
        refine ⟨ih.1, ?_⟩
        intro pv h
        simp at h
        rw [← h]
        rfl
      | arr l =>
        refine ⟨ih.1, ?_⟩
        intro pv h
        simp at h
        rw [← h]
        rfl
      | obj l =>
        refine ⟨ih.1, ?_⟩
        intro pv h
        simp at h
        rw [← h]
        rfl
  | leafT =>
    cases result with
    | null => exact ⟨by simp [completeValue, isNullish], by intro pv h; simp [completeValue, isNullish] at h; rw [← h]; rfl⟩
    | leaf ok s =>
      rw [completeValue.eq_def]
      simp only [isNullish, Bool.false_eq_true, if_false]
      cases hlf : completeLeafValue (.leaf ok s) with
      | ok v => exact ⟨rfl, by intro pv h; simp at h; rw [← h]; rfl⟩
      | error e => exact ⟨rfl, by intro pv h; simp at h⟩
    | list items =>
      rw [completeValue.eq_def]
      simp only [isNullish, Bool.false_eq_true, if_false]
      cases hlf : completeLeafValue (.list items) with
      | ok v => exact ⟨rfl, by intro pv h; simp at h; rw [← h]; rfl⟩
      | error e => exact ⟨rfl, by intro pv h; simp at h⟩
    | obj fields =>
      rw [completeValue.eq_def]
      simp only [isNullish, Bool.false_eq_true, if_false]
      cases hlf : completeLeafValue (.obj fields) with
      | ok v => exact ⟨rfl, by intro pv h; simp at h; rw [← h]; rfl⟩
      | error e => exact ⟨rfl, by intro pv h; simp at h⟩
    | error m =>
      exact ⟨by simp [completeValue], by intro pv h; simp [completeValue] at h⟩
    | prom r => simp [Raw.promFree] at hr
  | listT t =>
    cases result with
    | null => exact ⟨by simp [completeValue, isNullish], by intro pv h; simp [completeValue, isNullish] at h; rw [← h]; rfl⟩
    | leaf ok s =>
      rw [completeValue.eq_def]
      simp only [isNullish, Bool.false_eq_true, if_false]
      exact completeListValue_sync ctx t cf info path (.leaf ok s) disp
        errors hcf hr
    | list items =>
      rw [completeValue.eq_def]
      simp only [isNullish, Bool.false_eq_true, if_false]
      exact completeListValue_sync ctx t cf info path (.list items) disp
        errors hcf hr
    | obj fields =>
      rw [completeValue.eq_def]
      simp only [isNullish, Bool.false_eq_true, if_false]
      exact completeListValue_sync ctx t cf info path (.obj fields) disp
        errors hcf hr
    | error m =>
      exact ⟨by simp [completeValue], by intro pv h; simp [completeValue] at h⟩
    | prom r => simp [Raw.promFree] at hr
  | objT name table =>
    cases result with
    | null => exact ⟨by simp [completeValue, isNullish], by intro pv h; simp [completeValue, isNullish] at h; rw [← h]; rfl⟩
    | leaf ok s =>
      rw [completeValue.eq_def]
      simp only [isNullish, Bool.false_eq_true, if_false]
      exact collectAndExecuteSubfields_sync ctx name table cf (.leaf ok s)
        path disp errors hcf hr
    | list items =>
      rw [completeValue.eq_def]
      simp only [isNullish, Bool.false_eq_true, if_false]
      exact collectAndExecuteSubfields_sync ctx name table cf (.list items)
        path disp errors hcf hr
    | obj fields =>
      rw [completeValue.eq_def]
      simp only [isNullish, Bool.false_eq_true, if_false]
      exact collectAndExecuteSubfields_sync ctx name table cf (.obj fields)
        path disp errors hcf hr
    | error m =>
      exact ⟨by simp [completeValue], by intro pv h; simp [completeValue] at h⟩
    | prom r => simp [Raw.promFree] at hr
termination_by (sizeOf cf, 1, 3 * sizeOf returnType, 0)
decreasing_by
  · apply Prod.Lex.right
    apply Prod.Lex.right
    apply Prod.Lex.left
    simp <;> omega
  all_goals first
    | (apply Prod.Lex.right
       apply Prod.Lex.right
       apply Prod.Lex.left
       simp <;> omega)

theorem collectAndExecuteSubfields_sync (ctx : MCtx) (name : String)
    (table : List (String × SType)) (cf : CField) (result : Raw)
    (path : GPath) (disp : Disp) (errors : List GErr)
    (hcf : CField.plain cf = true) (hr : result.promFree = true) :
    (collectAndExecuteSubfields ctx name table cf result path disp
        errors).2.1 = disp ∧
    ∀ pv, (collectAndExecuteSubfields ctx name table cf result path disp
        errors).1 = .ok pv → pv.isPromise = false := by
  have hparts : plainFields cf.subsel.fields = true ∧
      cf.subsel.patches = [] := by
    rcases cf with ⟨rn, fn, st, sub⟩
    obtain ⟨hst, hsub⟩ := CField_plain_parts hcf
    rcases sub with ⟨sfields, spatches⟩
    obtain ⟨hpf, hpp⟩ := CSel_plain_parts hsub
    exact ⟨by simpa [CField.subsel, CSel.fields] using hpf,
      by simpa [CField.subsel, CSel.patches] using hpp⟩
  have ih := executeFields_sync ctx name table cf.subsel.fields result path
    disp errors hr hparts.1
  rw [collectAndExecuteSubfields.eq_def]
  split
  next e d er heq =>
    rw [heq] at ih
    exact ⟨ih.1, by intro pv h; simp at h⟩
  next subPV d er heq =>
    rw [heq] at ih
    simp only [hparts.2, runSubPatches.eq_1]
    refine ⟨ih.1, ?_⟩
    intro pv h
    simp at h
    rw [← h, PV_mapv_isPromise]
    exact ih.2 subPV rfl
termination_by (sizeOf cf, 1, 1, 0)
decreasing_by
  · apply Prod.Lex.left
    exact (sizeOf_fields_lt cf.subsel).trans (sizeOf_subsel_lt cf)

theorem completeListValue_sync (ctx : MCtx) (itemType : SType) (cf : CField)
    (info : InfoM) (path : GPath) (result : Raw) (disp : Disp)
    (errors : List GErr) (hcf : CField.plain cf = true)
    (hr : result.promFree = true) :
    (completeListValue ctx itemType cf info path result disp errors).2.1
      = disp ∧
    ∀ pv, (completeListValue ctx itemType cf info path result disp
        errors).1 = .ok pv → pv.isPromise = false := by
  have hstream : getStreamValues cf.stream = none := by
    rcases cf with ⟨rn, fn, st, sub⟩
    obtain ⟨hst, _⟩ := CField_plain_parts hcf
    rw [CField.stream, hst]
    rfl
  cases result with
  | list items =>
    have hpl : promFreeList items = true := by
      rw [Raw.promFree] at hr
      exact hr
    have ih := completeListItems_sync ctx itemType cf info path none items 0
      disp errors rfl hcf hpl
    rw [completeListValue.eq_def]
    simp only [hstream]
    rcases hlp : completeListItems ctx itemType cf info path none items 0
      disp errors with ⟨c, d, er⟩
    rw [hlp] at ih
    cases c with
    | error e => exact ⟨ih.1, by intro pv h; simp at h⟩
    | ok pvs =>
      refine ⟨ih.1, ?_⟩
      intro pv h
      simp at h
      rw [← h, PV_mapv_isPromise]
      exact combineList_sync (ih.2 pvs rfl)
  | null => exact ⟨by rw [completeListValue.eq_def], by intro pv h; rw [completeListValue.eq_def] at h; simp at h⟩
  | leaf ok s => exact ⟨by rw [completeListValue.eq_def], by intro pv h; rw [completeListValue.eq_def] at h; simp at h⟩
  | obj fields => exact ⟨by rw [completeListValue.eq_def], by intro pv h; rw [completeListValue.eq_def] at h; simp at h⟩
  | error m => exact ⟨by rw [completeListValue.eq_def], by intro pv h; rw [completeListValue.eq_def] at h; simp at h⟩
  | prom r => simp [Raw.promFree] at hr
termination_by (sizeOf cf, 1, 3 * sizeOf itemType + 2, 0)
decreasing_by
  · apply Prod.Lex.right
    apply Prod.Lex.right
    apply Prod.Lex.left
    omega

theorem completeListItems_sync (ctx : MCtx) (itemType : SType) (cf : CField)
    (info : InfoM) (path : GPath)
    (stream : Option (Option Int × Option String)) (items : List Raw)
    (index : Nat) (disp : Disp) (errors : List GErr)
    (hstream : stream = none) (hcf : CField.plain cf = true)
    (hitems : promFreeList items = true) :
    (completeListItems ctx itemType cf info path stream items index disp
        errors).2.1 = disp ∧
    ∀ pvs, (completeListItems ctx itemType cf info path stream items index
        disp errors).1 = .ok pvs → ∀ pv ∈ pvs, pv.isPromise = false := by
  subst hstream
  revert hitems
  cases hi : items with
  | nil =>
    intro hitems
    rw [completeListItems.eq_1]
    exact ⟨rfl, by intro pvs h pv hm; simp at h; rw [h] at hm; simp at hm⟩
  | cons item rest =>
    intro hitems
    rw [promFreeList, Bool.and_eq_true] at hitems
    have ih1 := completeOneItem_sync ctx itemType cf info
      (addPath path (.idx index) none) item disp errors hcf hitems.1
    rw [completeListItems.eq_2, if_neg (by simp [streamActive])]
    split
    next e d1 er1 heq =>
      rw [heq] at ih1
      exact ⟨ih1.1, by intro pvs h pv hm; simp at h⟩
    next pv d1 er1 heq =>
      rw [heq] at ih1
      have ih2 := completeListItems_sync ctx itemType cf info path none rest
        (index + 1) d1 er1 rfl hcf hitems.2
      split
      next e2 d2 er2 heq2 =>
        rw [heq2] at ih2
        have hd2 : d2 = d1 := ih2.1
        have hd1 : d1 = disp := ih1.1
        exact ⟨by rw [hd2, hd1], by intro pvs h pv' hm; simp at h⟩
      next pvs2 d2 er2 heq2 =>
        rw [heq2] at ih2
        have hd2 : d2 = d1 := ih2.1
        have hd1 : d1 = disp := ih1.1
        refine ⟨by rw [hd2, hd1], ?_⟩
        intro pvs h pv' hm
        have h' : pv :: pvs2 = pvs := by
          first
          | (injection h with h''
             exact h'')
          | injection h
        rw [← h'] at hm
        rcases List.mem_cons.mp hm with hh | hh
        · rw [hh]
          exact ih1.2 pv rfl
        · exact ih2.2 pvs2 rfl pv' hh
termination_by (sizeOf cf, 1, 3 * sizeOf itemType + 1, items.length + 1)
decreasing_by
  all_goals
    apply Prod.Lex.right
    apply Prod.Lex.right
    apply Prod.Lex.right
    first
    | omega
    | (subst hi
       simp <;> omega)

theorem completeOneItem_sync (ctx : MCtx) (itemType : SType) (cf : CField)
    (info : InfoM) (itemPath : GPath) (item : Raw) (disp : Disp)
    (errors : List GErr) (hcf : CField.plain cf = true)
    (hitem : item.promFree = true) :
    (completeOneItem ctx itemType cf info itemPath item disp errors).2.1
      = disp ∧
    ∀ pv, (completeOneItem ctx itemType cf info itemPath item disp
        errors).1 = .ok pv → pv.isPromise = false := by
  have ih := completeValue_sync ctx itemType cf info itemPath item disp
    errors hcf hitem
  rw [completeOneItem.eq_def]
  split
  next inner =>
    simp [Raw.promFree] at hitem
  next x hx =>
    split
    next pv d er heq =>
      rw [heq] at ih
      have hsync := ih.2 pv rfl
      simp only [hsync, Bool.false_eq_true, if_false]
      exact ⟨ih.1, by intro pv' h; simp at h; rw [← h]; exact hsync⟩
    next rawError d er heq =>
      rw [heq] at ih
      cases hh : handleFieldError (locatedError rawError
          (pathToArray itemPath)) itemType er with
      | error e' =>
        simp only [hh]
        exact ⟨ih.1, by intro pv h; simp at h⟩
      | ok errs' =>
        simp only [hh]
        exact ⟨ih.1, by intro pv h; simp at h; rw [← h]; rfl⟩
termination_by (sizeOf cf, 1, 3 * sizeOf itemType + 1, 0)
decreasing_by
  all_goals
    apply Prod.Lex.right
    apply Prod.Lex.right
    apply Prod.Lex.left
    omega

theorem executeField_sync (ctx : MCtx) (parentName : String)
    (table : List (String × SType)) (source : Raw) (cf : CField)
    (path : GPath) (disp : Disp) (errors : List GErr)
    (hsource : source.promFree = true) (hcf : CField.plain cf = true) :
    (executeField ctx parentName table source cf path disp errors).2.1
      = disp ∧
    ∀ pv, (executeField ctx parentName table source cf path disp
        errors).1 = .ok (some pv) → pv.isPromise = false := by
  rw [executeField.eq_def]
  cases hg : getFieldDef ctx parentName table cf.fname with
  | none => exact ⟨rfl, by intro pv h; simp at h⟩
  | some fieldDef =>
    have hres := resolveValue_promFree fieldDef parentName cf.fname hsource
    have ih := completeValue_sync ctx fieldDef.type cf
      ⟨parentName, cf.fname⟩ path
      (fieldDef.resolveValue parentName source cf.fname) disp errors hcf hres
    rcases hrv : fieldDef.resolveValue parentName source cf.fname with
      _ | _ | _ | _ | _ | r
    case prom => rw [hrv, Raw.promFree] at hres; simp at hres
    all_goals
      rw [hrv] at ih
      rcases hc : completeValue ctx fieldDef.type cf ⟨parentName, cf.fname⟩
        path (fieldDef.resolveValue parentName source cf.fname) disp errors
        with ⟨c, d, er⟩
      rw [hrv] at hc
      rw [hc] at ih
      simp only [hrv, hc]
      cases c with
      | ok pv =>
        have hsync := ih.2 pv rfl
        simp only [hsync, Bool.false_eq_true, if_false]
        exact ⟨ih.1, by intro pv' h; simp at h; rw [← h]; exact hsync⟩
      | error rawError =>
        cases hh : handleFieldError (locatedError rawError
            (pathToArray path)) fieldDef.type er with
        | error e' =>
          simp only [hh]
          exact ⟨ih.1, by intro pv h; simp at h⟩
        | ok errs' =>
          simp only [hh]
          exact ⟨ih.1, by intro pv h; simp at h; rw [← h]; rfl⟩
termination_by (sizeOf cf, 2, 0, 0)
decreasing_by
  all_goals
    apply Prod.Lex.right
    apply Prod.Lex.left
    omega

theorem executeFields_sync (ctx : MCtx) (parentName : String)
    (table : List (String × SType)) (fields : List CField) (source : Raw)
    (path : GPath) (disp : Disp) (errors : List GErr)
    (hsource : source.promFree = true)
    (hflds : plainFields fields = true) :
    (executeFields ctx parentName table fields source path disp
        errors).2.1 = disp ∧
    ∀ pv, (executeFields ctx parentName table fields source path disp
        errors).1 = .ok pv → pv.isPromise = false := by
  revert hflds
  cases hfi : fields with
  | nil =>
    intro hflds
    rw [executeFields.eq_1]
    exact ⟨rfl, by intro pv h; simp at h; rw [← h]; rfl⟩
  | cons cf rest =>
    intro hflds
    rw [plainFields_cons, Bool.and_eq_true] at hflds
    have ih1 := executeField_sync ctx parentName table source cf
      (addPath path (.key cf.rname) (some parentName))
      disp errors hsource hflds.1
    rw [executeFields.eq_2]
    split
    next e d1 er1 heq =>
      rw [heq] at ih1
      exact ⟨ih1.1, by intro pv h; simp at h⟩
    next res d1 er1 heq =>
      rw [heq] at ih1
      have ih2 := executeFields_sync ctx parentName table rest source path
        d1 er1 hsource hflds.2
      split
      next e2 d2 er2 heq2 =>
        rw [heq2] at ih2
        have hd2 : d2 = d1 := ih2.1
        have hd1 : d1 = disp := ih1.1
        exact ⟨by rw [hd2, hd1], by intro pv h; simp at h⟩
      next pvRest d2 er2 heq2 =>
        rw [heq2] at ih2
        have hd2 : d2 = d1 := ih2.1
        have hd1 : d1 = disp := ih1.1
        cases res with
        | none =>
          refine ⟨by rw [hd2, hd1], ?_⟩
          intro pv h
          have h' : pvRest = pv := by
            first
            | (injection h with h''
               exact h'')
            | injection h
          rw [← h']
          exact ih2.2 pvRest rfl
        | some pv0 =>
          refine ⟨by rw [hd2, hd1], ?_⟩
          intro pv h
          have h' : pvCons (PV.mapv (fun x => (cf.rname, x)) pv0) pvRest
              = pv := by
            first
            | (injection h with h''
               exact h'')
            | injection h
          rw [← h']
          have hs0 : pv0.isPromise = false := ih1.2 pv0 rfl
          have hsr : pvRest.isPromise = false := ih2.2 pvRest rfl
          exact pvCons_sync (by rw [PV_mapv_isPromise]; exact hs0) hsr
termination_by (sizeOf fields, 0, 0, 0)
decreasing_by
  all_goals
    apply Prod.Lex.left
    first
    | (simp <;> omega)
    | (subst hfi
       simp <;> omega)

end

/-- If every resolver value in the source tree is synchronous and the
    selection carries no stream directives or patches, the serial executor
    with `promised = false` leaves the dispatcher untouched and yields a
    synchronous field group (`executeFieldsSerially`, lines 489–524). -/
theorem executeFieldsSerially_sync (ctx : MCtx) (parentName : String)
    (table : List (String × SType)) (source : Raw) (path : GPath)
    (fields : List CField) (disp : Disp) (errors : List GErr)
    (hsource : source.promFree = true)
    (hflds : plainFields fields = true) :
    (executeFieldsSerially ctx parentName table source path fields false
        disp errors).2.1 = disp ∧
    ∀ pv, (executeFieldsSerially ctx parentName table source path fields
        false disp errors).1 = .ok pv → pv.isPromise = false := by
  revert hflds
  induction fields generalizing disp errors with
  | nil =>
    intro hflds
    rw [executeFieldsSerially.eq_1]
    exact ⟨rfl, by intro pv h; simp at h; rw [← h]; rfl⟩
  | cons cf rest ih =>
    intro hflds
    rw [plainFields_cons, Bool.and_eq_true] at hflds
    have ih1 := executeField_sync ctx parentName table source cf
      (addPath path (.key cf.rname) (some parentName)) disp errors hsource
      hflds.1
    rw [executeFieldsSerially.eq_2]
    split
    next e d1 er1 heq =>
      rw [heq] at ih1
      simp only [Bool.false_eq_true, if_false]
      exact ⟨ih1.1, by intro pv h; simp at h⟩
    next d1 er1 heq =>
      rw [heq] at ih1
      have ih2 := ih d1 er1 hflds.2
      exact ⟨by rw [ih2.1]; exact ih1.1, ih2.2⟩
    next pv d1 er1 heq =>
      rw [heq] at ih1
      have hpv : pv.isPromise = false := ih1.2 pv rfl
      cases pv with
      | prom s => simp [PV.isPromise] at hpv
      | ready v =>
        have ih2 := ih d1 er1 hflds.2
        rcases h3 : executeFieldsSerially ctx parentName table source path
          rest false d1 er1 with ⟨c3, d3, er3⟩
        rw [h3] at ih2
        cases c3 with
        | error e3 =>
          simp only [h3]
          have hd3 : d3 = d1 := ih2.1
          have hd1 : d1 = disp := ih1.1
          exact ⟨hd3.trans hd1, by intro pv' h; simp at h⟩
        | ok pvRest =>
          simp only [h3]
          have hd3 : d3 = d1 := ih2.1
          have hd1 : d1 = disp := ih1.1
          refine ⟨hd3.trans hd1, ?_⟩
          intro pv' h
          have h' : pvCons (.ready (cf.rname, v)) pvRest = pv' := by
            first
            | (injection h with h''
               exact h'')
            | injection h
          rw [← h']
          exact pvCons_sync rfl (ih2.2 pvRest rfl)

/-- With a synchronous source tree and a plain selection (no patches, no
    stream), `executeOperation` adds nothing to the dispatcher and any
    successful result is a synchronous field group, for all three operation
    kinds (lines 405–481). -/
theorem executeOperation_sync (ctx : MCtx) (opKind : OpKind)
    (rootName : String) (rootTable : List (String × SType)) (rootSel : CSel)
    (rootValue : Raw) (disp : Disp) (errors : List GErr)
    (hroot : rootValue.promFree = true)
    (hsel : CSel.plain rootSel = true) :
    (executeOperation ctx opKind rootName rootTable rootSel rootValue disp
        errors).2.1 = disp ∧
    ∀ pv, (executeOperation ctx opKind rootName rootTable rootSel rootValue
        disp errors).1 = .ok pv → pv.isPromise = false := by
  rcases rootSel with ⟨rfields, rpatches⟩
  obtain ⟨hpf, hpp⟩ := CSel_plain_parts hsel
  subst hpp
  cases opKind with
  | query =>
    have ihF := executeFields_sync ctx rootName rootTable rfields rootValue
      GPath.nil disp errors hroot hpf
    rcases hst : executeFields ctx rootName rootTable rfields rootValue
      GPath.nil disp errors with ⟨c, d, er⟩
    rw [hst] at ihF
    simp only [executeOperation, CSel.fields, CSel.patches, hst]
    cases c with
    | error e => exact ⟨ihF.1, by intro pv h; simp at h⟩
    | ok pv =>
      simp only [runRootPatches.eq_1]
      refine ⟨ihF.1, ?_⟩
      intro pv' h
      have h' : pv = pv' := by
        first
        | (injection h with h''
           exact h'')
        | injection h
      rw [← h']
      exact ihF.2 pv rfl
  | subscription =>
    have ihF := executeFields_sync ctx rootName rootTable rfields rootValue
      GPath.nil disp errors hroot hpf
    rcases hst : executeFields ctx rootName rootTable rfields rootValue
      GPath.nil disp errors with ⟨c, d, er⟩
    rw [hst] at ihF
    simp only [executeOperation, CSel.fields, CSel.patches, hst]
    cases c with
    | error e => exact ⟨ihF.1, by intro pv h; simp at h⟩
    | ok pv =>
      simp only [runRootPatches.eq_1]
      refine ⟨ihF.1, ?_⟩
      intro pv' h
      have h' : pv = pv' := by
        first
        | (injection h with h''
           exact h'')
        | injection h
      rw [← h']
      exact ihF.2 pv rfl
  | mutation =>
    have ihF := executeFieldsSerially_sync ctx rootName rootTable rootValue
      GPath.nil rfields disp errors hroot hpf
    rcases hst : executeFieldsSerially ctx rootName rootTable rootValue
      GPath.nil rfields false disp errors with ⟨c, d, er⟩
    rw [hst] at ihF
    simp only [executeOperation, CSel.fields, CSel.patches, hst]
    cases c with
    | error e => exact ⟨ihF.1, by intro pv h; simp at h⟩
    | ok pv =>
      simp only [runRootPatches.eq_1]
      refine ⟨ihF.1, ?_⟩
      intro pv' h
      have h' : pv = pv' := by
        first
        | (injection h with h''
           exact h'')
        | injection h
      rw [← h']
      exact ihF.2 pv rfl

/-! ## The Non-Null chain scenario (for C1) -/

/-- The non-null chain scenario of C1: a root object type `T` whose single
    field chain descends through object fields named `o` — each wrapped
    `Non-Null` or not according to the `spine` — down to a `Non-Null` leaf
    field `fname` whose resolver yields `null`.  `spineTable` is the field
    table at each level. -/
def spineTable (fname : String) : List Bool → List (String × SType)
  | [] => [(fname, .nonNull .leafT)]
  | nn :: rest =>
    [("o", if nn then .nonNull (.objT "T" (spineTable fname rest))
           else .objT "T" (spineTable fname rest))]

/-- The collected selection of the chain scenario: one field per level. -/
def spineSel (fname : String) : List Bool → CSel
  | [] => .mk [.mk fname fname none (.mk [] [])] []
  | _ :: rest => .mk [.mk "o" "o" none (spineSel fname rest)] []

/-- The field list of a level's selection. -/
def spineFields (fname : String) : List Bool → List CField
  | [] => [.mk fname fname none (.mk [] [])]
  | _ :: rest => [.mk "o" "o" none (spineSel fname rest)]

/-- The source tree of the chain scenario: nested objects ending at a
    `null` leaf. -/
def spineRaw (fname : String) : List Bool → Raw
  | [] => .obj [(fname, .null)]
  | _ :: rest => .obj [("o", spineRaw fname rest)]

/-- The field lists of the source objects of the chain. -/
def spineRawFields (fname : String) : List Bool → List (String × Raw)
  | [] => [(fname, .null)]
  | _ :: rest => [("o", spineRaw fname rest)]

/-- The response key produced at a level of the chain. -/
def spineKey (fname : String) : List Bool → String
  | [] => fname
  | _ :: _ => "o"

/-- The target field's path segments below a level of the chain. -/
def spineSegs (fname : String) : List Bool → List Seg
  | [] => [.key fname]
  | _ :: rest => .key "o" :: spineSegs fname rest

/-- The message `completeValue` raises for a `Non-Null` field of `T`
    resolving to `null` (lines 735–751). -/
def cannotNullMsg (fname : String) : String :=
  "Cannot return null for non-nullable field " ++ "T" ++ "." ++ fname ++ "."

/-- The completed value of a level's field: `none` when the null bubbles
    past it (every type below is Non-Null), otherwise the nested object in
    which the nearest nullable ancestor of the target field is `null`. -/
def expVal (fname : String) : List Bool → Option JVal
  | [] => none
  | nn :: rest =>
    match expVal fname rest with
    | some v => some (.obj [(spineKey fname rest, v)])
    | none => if nn then none else some .null

/-- The outcome of the field group at a level of the chain: either the
    located error escapes (all Non-Null below), or the group resolves with
    the nearest nullable ancestor nulled and the error appended. -/
def spineOut (fname : String) (s : List Bool) (path : GPath) (disp : Disp)
    (errors : List GErr) : Except GErr (PV RespObj) × Disp × List GErr :=
  match expVal fname s with
  | none =>
    (.error ⟨cannotNullMsg fname,
      some (pathToArray path ++ spineSegs fname s)⟩, disp, errors)
  | some v =>
    (.ok (.ready [(spineKey fname s, v)]), disp,
      errors ++ [⟨cannotNullMsg fname,
        some (pathToArray path ++ spineSegs fname s)⟩])

theorem spineFields_nil (fname : String) :
    spineFields fname [] = [.mk fname fname none (.mk [] [])] := rfl

theorem spineFields_cons (fname : String) (nn : Bool) (rest : List Bool) :
    spineFields fname (nn :: rest) =
      [.mk "o" "o" none (spineSel fname rest)] := rfl

theorem spineSel_fields (fname : String) (s : List Bool) :
    (spineSel fname s).fields = spineFields fname s := by
  cases s <;> rfl

theorem spineSel_patches (fname : String) (s : List Bool) :
    (spineSel fname s).patches = [] := by
  cases s <;> rfl

theorem spineRaw_obj (fname : String) (s : List Bool) :
    spineRaw fname s = .obj (spineRawFields fname s) := by
  cases s <;> rfl

theorem spineRawFields_nil (fname : String) :
    spineRawFields fname [] = [(fname, .null)] := rfl

theorem spineRawFields_cons (fname : String) (nn : Bool)
    (rest : List Bool) :
    spineRawFields fname (nn :: rest) = [("o", spineRaw fname rest)] := rfl

theorem CField_fname_mk (rn fn : String) (st : Option StreamDirArgs)
    (sub : CSel) : (CField.mk rn fn st sub).fname = fn := rfl

theorem CField_rname_mk (rn fn : String) (st : Option StreamDirArgs)
    (sub : CSel) : (CField.mk rn fn st sub).rname = rn := rfl

theorem CField_subsel_mk (rn fn : String) (st : Option StreamDirArgs)
    (sub : CSel) : (CField.mk rn fn st sub).subsel = sub := rfl

theorem CField_stream_mk (rn fn : String) (st : Option StreamDirArgs)
    (sub : CSel) : (CField.mk rn fn st sub).stream = st := rfl

theorem CSel_fields_mk (fs : List CField) (ps : List CPatch) :
    (CSel.mk fs ps).fields = fs := rfl

theorem CSel_patches_mk (fs : List CField) (ps : List CPatch) :
    (CSel.mk fs ps).patches = ps := rfl

set_option maxRecDepth 4096 in
theorem spineStep (fname : String) (hf : fname ≠ "__typename")
    (s : List Bool) : ∀ (path : GPath) (disp : Disp) (errors : List GErr),
    executeFields ⟨""⟩ "T" (spineTable fname s) (spineFields fname s)
      (spineRaw fname s) path disp errors =
    spineOut fname s path disp errors := by
  induction s with
  | nil =>
    intro path disp errors
    simp [spineTable, spineFields_nil, spineRaw_obj, spineRawFields_nil,
      spineSegs, spineKey, spineOut, expVal, cannotNullMsg, executeFields,
      executeField, completeValue, getFieldDef, hf, alookup, FieldDefM.type,
      FieldDefM.resolveValue, defaultFieldResolver, isNullish,
      handleFieldError, isNonNullType, locatedError, addPath, pathToArray,
      CField_fname_mk, CField_rname_mk, CField_subsel_mk, CField_stream_mk,
      CSel_fields_mk, CSel_patches_mk, pvCons, PV.mapv, PV.isPromise]
  | cons nn rest ih =>
    intro path disp errors
    have ih' : ∀ (p : GPath) (d : Disp) (e : List GErr),
        executeFields ⟨""⟩ "T" (spineTable fname rest)
          (spineFields fname rest) (.obj (spineRawFields fname rest))
          p d e = spineOut fname rest p d e := by
      intro p d e
      rw [← spineRaw_obj]
      exact ih p d e
    rcases hv : expVal fname rest with _ | v <;> cases nn <;>
      simp [spineTable, spineFields_cons, spineRaw_obj, spineRawFields_cons,
        spineSegs, spineKey, spineOut, expVal, hv, ih', cannotNullMsg,
        spineSel_fields, spineSel_patches, executeFields, executeField,
        completeValue, collectAndExecuteSubfields, runSubPatches,
        getFieldDef, alookup, FieldDefM.type, FieldDefM.resolveValue,
        defaultFieldResolver, isNullish, handleFieldError, isNonNullType,
        locatedError, addPath, pathToArray, CField_fname_mk, CField_rname_mk,
        CField_subsel_mk, CField_stream_mk, CSel_fields_mk, CSel_patches_mk,
        pvCons, PV.mapv, PV.isPromise]

/-- The `data` slot the chain scenario must produce: `null` when every type
    on the chain is Non-Null, otherwise the nested object in which the
    nearest nullable ancestor of the target field is `null`. -/
def spineData (fname : String) (s : List Bool) : DataOut :=
  match expVal fname s with
  | none => .nullData
  | some v => .objData [(spineKey fname s, v)]

/-! ## Claim theorems -/

/-- C10: a selected field whose name has no definition on the parent object
    type and is none of the introspection meta-fields (`__schema` / `__type`
    on the query root, `__typename` anywhere) makes `getFieldDef` return
    nothing, `executeField` return `undefined` with the dispatcher and every
    error list untouched, and `executeFields` behave as if the field were
    absent — its response key is omitted entirely. -/
theorem claim_C10 (ctx : MCtx) (parentName : String)
    (table : List (String × SType)) (source : Raw) (cf : CField)
    (rest : List CField) (path fieldPath : GPath) (disp : Disp)
    (errors : List GErr)
    (hdef : alookup table cf.fname = none)
    (hschema : ¬(cf.fname = "__schema" ∧ ctx.queryRootName = parentName))
    (htype : ¬(cf.fname = "__type" ∧ ctx.queryRootName = parentName))
    (htypename : cf.fname ≠ "__typename") :
    getFieldDef ctx parentName table cf.fname = none ∧
    executeField ctx parentName table source cf fieldPath disp errors
      = (.ok none, disp, errors) ∧
    executeFields ctx parentName table (cf :: rest) source path disp errors
      = executeFields ctx parentName table rest source path disp errors := by
  have hg : getFieldDef ctx parentName table cf.fname = none := by
    simp [getFieldDef, hschema, htype, htypename, hdef]
  have hef : ∀ fp : GPath,
      executeField ctx parentName table source cf fp disp errors
        = (.ok none, disp, errors) := by
    intro fp
    rw [executeField.eq_def, hg]
  refine ⟨hg, hef fieldPath, ?_⟩
  rcases hrest : executeFields ctx parentName table rest source path disp
    errors with ⟨r, d, er⟩
  rw [executeFields.eq_2]
  simp only [hef, hrest]
  cases r <;> rfl

/-- C10 witness: the field `g` is undefined on `Obj`, is skipped, and leaves
    the sibling execution untouched. -/
theorem claim_C10_witness :
    getFieldDef ⟨"Query"⟩ "Obj" [("x", .leafT)]
      (CField.mk "g" "g" none (.mk [] [])).fname = none ∧
    executeField ⟨"Query"⟩ "Obj" [("x", .leafT)] (.obj [("x", .leaf true "a")])
      (CField.mk "g" "g" none (.mk [] [])) .nil [] [] = (.ok none, [], []) ∧
    executeFields ⟨"Query"⟩ "Obj" [("x", .leafT)]
      [CField.mk "g" "g" none (.mk [] [])] (.obj [("x", .leaf true "a")])
      .nil [] []
      = executeFields ⟨"Query"⟩ "Obj" [("x", .leafT)] []
          (.obj [("x", .leaf true "a")]) .nil [] [] :=
  claim_C10 ⟨"Query"⟩ "Obj" [("x", .leafT)] (.obj [("x", .leaf true "a")])
    (CField.mk "g" "g" none (.mk [] [])) [] .nil .nil [] []
    (by simp [alookup, CField.fname]) (by simp [CField.fname])
    (by simp [CField.fname]) (by simp [CField.fname])

/-- C3: evaluation at the failing input.  A root `@defer` patch whose field
    `bad` fails (nullable leaf, resolver yields an `Error`): contrary to the
    claim, the located error `boom` at path `["bad"]` is appended to the
    **main** error accumulator and surfaces in the initial result, while the
    patch payload recorded by `addFields` carries the fresh — and forever
    empty — error list (`executeOperation` passes `exeContext.errors`, not
    the fresh list, to `executeFields`, lines 465–473). -/
theorem claim_C3 : executeWithContext ⟨"Query"⟩ .query "Query"
      [("x", .leafT), ("bad", .leafT)]
      (.mk [.mk "x" "x" none (.mk [] [])]
        [.mk (some "L") [.mk "bad" "bad" none (.mk [] [])]])
      (.obj [("x", .leaf true "a"), ("bad", .error "boom")])
    = .now (.seq
        { errors := [⟨"boom", some [.key "bad"]⟩],
          data := .objData [("x", .str "a")] }
        [.fields (.ok (.ready [("bad", .null)])) [] (some "L") []]) := by
  simp [executeWithContext, executeOperation, executeFields,
    executeField, completeValue, runSubPatches, collectAndExecuteSubfields,
    getFieldDef, FieldDefM.resolveValue, FieldDefM.type, defaultFieldResolver,
    alookup, runRootPatches, buildResponse, isNullish, completeLeafValue,
    locatedError, handleFieldError, isNonNullType,
    CField.fname, CField.rname, CField.subsel, CField.stream, CSel.fields,
    CSel.patches, CPatch.label, CPatch.fields, addPath, pathToArray, pvCons,
    PV.mapv, PV.isPromise]

/-- A future of the winning identity is absent from the spliced queue when
    identities are unique. -/
theorem mem_spliceOut_self {l : List (PendFut α)} {f : PendFut α}
    (hnodup : (l.map PendFut.fid).Nodup) (hmem : f ∈ l) :
    f ∉ spliceOut l f.fid := by
  induction l with
  | nil => simp at hmem
  | cons g rest ih =>
    simp only [List.map_cons, List.nodup_cons] at hnodup
    by_cases hg : g.fid = f.fid
    · rw [spliceOut, List.eraseP_cons_of_pos (by simp [hg])]
      intro hf
      exact hnodup.1 (hg ▸ (List.mem_map_of_mem PendFut.fid hf))
    · rw [spliceOut, List.eraseP_cons_of_neg (by simp [hg])]
      have hfr : f ∈ rest := by
        rcases List.mem_cons.mp hmem with h | h
        · exact absurd (show g.fid = f.fid by rw [h]) hg
        · exact h
      intro hf
      rcases List.mem_cons.mp hf with h | h
      · exact hg (by rw [h])
      · exact ih hnodup.2 hfr h

/-- Splicing only removes: every remaining entry was pending. -/
theorem spliceOut_subset {l : List (PendFut α)} {fid : Nat} {g : PendFut α}
    (h : g ∈ spliceOut l fid) : g ∈ l :=
  List.mem_of_mem_eraseP h

set_option maxHeartbeats 1000000 in
/-- C5: behaviour of the async sequence returned by `Dispatcher.get`:
    (i) the first `next()` resolves to the initial result extended with
    `hasNext: true`; (ii) after that an empty queue terminates the iterator;
    (iii) a subsequent `next()` races the pending futures and, when the
    first to settle carries a payload, removes exactly that future from the
    queue by identity and emits the payload with `hasNext` true exactly when
    payloads remain pending; (iv) when the first to settle carries the
    terminal done signal and nothing remains pending, one final
    `{hasNext: false}` payload is emitted and the next call ends the
    sequence; (v) when the done signal arrives while payloads remain
    pending, the remaining futures are raced again. -/

theorem claim_C5 {α β : Type} (st : DState α β) :
    (st.hasReturnedInitial = false →
      dispatcherNext st = (.val (.initialRes st.initialResult true),
        { st with hasReturnedInitial := true })) ∧
    (st.hasReturnedInitial = true → st.pending = [] →
      dispatcherNext st = (.doneIter, st)) ∧
    (∀ f : PendFut α, ∀ v : α, st.hasReturnedInitial = true →
      firstToSettle st.pending = some f → f.res = some v →
      (st.pending.map PendFut.fid).Nodup →
      dispatcherNext st
        = (.val (.patchRes v (!(spliceOut st.pending f.fid).isEmpty)),
           { st with pending := spliceOut st.pending f.fid }) ∧
      f ∉ spliceOut st.pending f.fid ∧
      (spliceOut st.pending f.fid).length + 1 = st.pending.length ∧
      (∀ g, g ∈ spliceOut st.pending f.fid → g ∈ st.pending)) ∧
    (∀ f : PendFut α, st.hasReturnedInitial = true →
      firstToSettle st.pending = some f → f.res = none →
      spliceOut st.pending f.fid = [] →
      dispatcherNext st = (.val (.bare false), { st with pending := [] }) ∧
      dispatcherNext { st with pending := ([] : List (PendFut α)) }
        = (.doneIter, { st with pending := ([] : List (PendFut α)) })) ∧
    (∀ f : PendFut α, st.hasReturnedInitial = true →
      firstToSettle st.pending = some f → f.res = none →
      spliceOut st.pending f.fid ≠ [] →
      dispatcherNext st
        = ((race (β := β) (spliceOut st.pending f.fid)).1,
           { st with
              pending := (race (β := β) (spliceOut st.pending f.fid)).2 })) := by
  refine ⟨?_, ?_, ?_, ?_, ?_⟩
  · intro h
    simp [dispatcherNext, h]
  · intro h1 h2
    simp [dispatcherNext, h1, h2]
  · intro f v h1 hfs hres hnodup
    have hmem := firstToSettle_mem hfs
    have hne : st.pending ≠ [] := by
      intro h0
      rw [h0] at hfs
      simp [firstToSettle] at hfs
    have hrace : race (β := β) st.pending
        = (.val (.patchRes v (!(spliceOut st.pending f.fid).isEmpty)),
           spliceOut st.pending f.fid) := by
      rw [race.eq_def, hfs]
      simp [hres]
    refine ⟨?_, mem_spliceOut_self hnodup hmem, ?_, fun g => spliceOut_subset⟩
    · simp [dispatcherNext, h1, hne, hrace]
    · have : (st.pending.eraseP (fun g => g.fid = f.fid)).length + 1
          = st.pending.length :=
        List.length_eraseP_add_one (a := f) hmem (by simp)
      simpa [spliceOut] using this
  · intro f h1 hfs hres hempty
    have hne : st.pending ≠ [] := by
      intro h0
      rw [h0] at hfs
      simp [firstToSettle] at hfs
    have hrace : race (β := β) st.pending = (.val (.bare false), []) := by
      rw [race.eq_def, hfs]
      simp [hres, hempty]
    constructor
    · simp [dispatcherNext, h1, hne, hrace]
    · simp [dispatcherNext, h1]
  · intro f h1 hfs hres hne'
    have hne : st.pending ≠ [] := by
      intro h0
      rw [h0] at hfs
      simp [firstToSettle] at hfs
    have hemp : (spliceOut st.pending f.fid).isEmpty = false := by
      cases h' : spliceOut st.pending f.fid with
      | nil => exact absurd h' hne'
      | cons a l => rfl
    have hrace : race (β := β) st.pending
        = race (spliceOut st.pending f.fid) := by
      rw [race.eq_def, hfs]
      simp [hres, hemp]
    have hpe : st.pending.isEmpty = false := by
      cases h' : st.pending with
      | nil => exact absurd h' hne
      | cons a l => rfl
    simp only [dispatcherNext, h1, hpe, hrace, Bool.not_true,
      Bool.false_eq_true, if_false]



/-- C5 witness -/
theorem claim_C5_witness :
    dispatcherNext (DState.mk [⟨1, 5, some "a"⟩, ⟨2, 3, some "b"⟩]
        (0 : Nat) true)
      = (.val (.patchRes "b" true),
         DState.mk [⟨1, 5, some "a"⟩] (0 : Nat) true) ∧
    firstToSettle [PendFut.mk 1 5 (some "a"), PendFut.mk 2 3 (some "b")]
      = some ⟨2, 3, some "b"⟩ := by
  have h := (claim_C5 (α := String) (β := Nat)
      ⟨[⟨1, 5, some "a"⟩, ⟨2, 3, some "b"⟩], 0, true⟩).2.2.1
    ⟨2, 3, some "b"⟩ "b" rfl (by decide) rfl (by decide)
  exact ⟨h.1, by decide⟩

/-- C7: `ensureValidRuntimeType` accepts exactly the resolutions that are a
    string naming a schema type that is an Object type and a possible
    subtype of the abstract type (and the accepted name is the looked-up
    Object type); every violation — including a nullish resolution — makes
    `completeAbstractValue` raise that `GraphQLError` instead of completing,
    and an accepted resolution makes completion proceed as the named Object
    type. -/
theorem claim_C7 (schema : SchemaM) (abstractName : String) (info : InfoM)
    (rt : ResolvedTypeVal) (completeObject : String → Except GErr JVal) :
    ((∃ n, ensureValidRuntimeType schema abstractName info rt = .ok n) ↔
      (∃ s n, rt = .strName s ∧
        alookup schema.types s = some (.objNT n) ∧
        schema.isSubTypeB abstractName n = true)) ∧
    (∀ n, ensureValidRuntimeType schema abstractName info rt = .ok n →
      ∃ s, rt = .strName s ∧ alookup schema.types s = some (.objNT n)) ∧
    (∀ e, ensureValidRuntimeType schema abstractName info rt = .error e →
      completeAbstractValue schema abstractName info (.ready rt)
        completeObject = .error e) ∧
    (∀ n, ensureValidRuntimeType schema abstractName info rt = .ok n →
      completeAbstractValue schema abstractName info (.ready rt)
        completeObject
        = match completeObject n with
          | .error e => .error e
          | .ok b => .ok (.ready b)) := by
  refine ⟨?_, ?_, ?_, ?_⟩
  · constructor
    · rintro ⟨n, hn⟩
      cases rt with
      | nullish => simp [ensureValidRuntimeType] at hn
      | objTypeInstance => simp [ensureValidRuntimeType] at hn
      | nonStringV => simp [ensureValidRuntimeType] at hn
      | strName s =>
        refine ⟨s, n, rfl, ?_, ?_⟩ <;>
        · simp only [ensureValidRuntimeType] at hn
          cases hl : alookup schema.types s with
          | none => rw [hl] at hn; simp at hn
          | some t =>
            rw [hl] at hn
            cases t with
            | otherNT m => simp at hn
            | objNT m =>
              by_cases hs : schema.isSubTypeB abstractName m
              · simp [hs] at hn
                subst hn
                simp_all
              · simp [hs] at hn
    · rintro ⟨s, n, rfl, hl, hs⟩
      exact ⟨n, by simp [ensureValidRuntimeType, hl, hs]⟩
  · intro n hn
    cases rt with
    | nullish => simp [ensureValidRuntimeType] at hn
    | objTypeInstance => simp [ensureValidRuntimeType] at hn
    | nonStringV => simp [ensureValidRuntimeType] at hn
    | strName s =>
      refine ⟨s, rfl, ?_⟩
      simp only [ensureValidRuntimeType] at hn
      cases hl : alookup schema.types s with
      | none => rw [hl] at hn; simp at hn
      | some t =>
        rw [hl] at hn
        cases t with
        | otherNT m => simp at hn
        | objNT m =>
          by_cases hs : schema.isSubTypeB abstractName m
          · simp [hs] at hn
            subst hn
            rfl
          · simp [hs] at hn
  · intro e he
    simp [completeAbstractValue, he]
  · intro n hn
    cases hc : completeObject n <;> simp [completeAbstractValue, hn, hc]



/-- The concrete schema of the C7 witness: one object type `A`, possible
    for the abstract type `U`. -/
def c7schema : SchemaM :=
  { types := [("A", .objNT "A")],
    isSubTypeB := fun a n => a = "U" && n = "A" }

/-- C7 witness -/
theorem claim_C7_witness :
    ensureValidRuntimeType c7schema "U" ⟨"Q", "f"⟩ (.strName "A")
      = .ok "A" ∧
    completeAbstractValue c7schema "U" ⟨"Q", "f"⟩ (.ready (.strName "A"))
      (fun _ => (.ok (.str "ok") : Except GErr JVal))
      = .ok (.ready (.str "ok")) := by
  have he : ensureValidRuntimeType c7schema "U" ⟨"Q", "f"⟩ (.strName "A")
      = .ok "A" := by
    simp [ensureValidRuntimeType, alookup, c7schema]
  have h := claim_C7 c7schema "U" ⟨"Q", "f"⟩ (.strName "A")
    (fun _ => (.ok (.str "ok") : Except GErr JVal))
  exact ⟨he, by simpa using h.2.2.2 "A" he⟩

/-- An operation definition. -/
def isOpDef : DefnNode → Bool
  | .operation _ _ _ => true
  | _ => false

/-- An operation definition carrying the requested name. -/
def isOpNamed (n : String) : DefnNode → Bool
  | .operation nm _ _ => nm = some n
  | _ => false

theorem findOperation_multi (defs : List DefnNode)
    (acc : Option (OpKind × CSel))
    (h : 2 ≤ defs.countP isOpDef + (if acc.isSome then 1 else 0)) :
    findOperation defs none acc
      = .error [⟨"Must provide operation name if query contains multiple operations.",
          none⟩] := by
  induction defs generalizing acc with
  | nil => rcases acc with _ | a <;> simp at h
  | cons d rest ih =>
    cases d with
    | operation nm k sel =>
      rw [findOperation]
      cases acc with
      | some a => simp
      | none =>
        have h' : 2 ≤ rest.countP isOpDef +
            (if (some (k, sel) : Option (OpKind × CSel)).isSome then 1
             else 0) := by
          simp only [List.countP_cons, isOpDef, Option.isSome_some,
            Option.isSome_none, eq_self_iff_true, Bool.false_eq_true,
            if_true, if_false, ite_true, ite_false] at h ⊢
          omega
        simpa using ih _ h'
    | fragment nm =>
      rw [findOperation]
      apply ih
      simp only [List.countP_cons, isOpDef, Option.isSome_some,
        Option.isSome_none, eq_self_iff_true, Bool.false_eq_true,
        if_true, if_false, ite_true, ite_false] at h ⊢
      omega

theorem findOperation_unknown (n : String) (defs : List DefnNode)
    (h : ∀ d ∈ defs, isOpNamed n d = false) :
    findOperation defs (some n) none
      = .error [⟨"Unknown operation named \"" ++ n ++ "\".", none⟩] := by
  induction defs with
  | nil => rw [findOperation]
  | cons d rest ih =>
    cases d with
    | operation nm k sel =>
      rw [findOperation]
      have hd := h _ (List.mem_cons_self _ _)
      simp [isOpNamed] at hd
      simp only [hd, if_false]
      · exact ih fun d hd' => h d (List.mem_cons_of_mem _ hd')
    | fragment nm =>
      rw [findOperation]
      exact ih fun d hd' => h d (List.mem_cons_of_mem _ hd')

theorem findOperation_noop (defs : List DefnNode)
    (h : ∀ d ∈ defs, isOpDef d = false) :
    findOperation defs none none
      = .error [⟨"Must provide an operation.", none⟩] := by
  induction defs with
  | nil => rw [findOperation]
  | cons d rest ih =>
    cases d with
    | operation nm k sel =>
      have := h _ (List.mem_cons_self _ _)
      simp [isOpDef] at this
    | fragment nm =>
      rw [findOperation]
      exact ih fun d hd' => h d (List.mem_cons_of_mem _ hd')

/-- C8: `buildExecutionContext` returns an error list instead of a context
    when the document holds multiple operations with no operation name
    requested, when a requested name matches no operation, when the
    document holds no operation, or when variable coercion fails (at most
    50 coercion errors surfacing); in each such case `execute` returns
    `{errors}` with no data and without executing any field. -/
theorem claim_C8 (defs : List DefnNode) (operationName : Option String)
    (varErrors : List GErr) (ctx : MCtx) (rootName : String)
    (rootTable : List (String × SType)) (rootValue : Raw) :
    (2 ≤ defs.countP isOpDef → operationName = none →
      buildExecutionContextM defs operationName varErrors
        = .error [⟨"Must provide operation name if query contains multiple operations.",
            none⟩]) ∧
    (∀ n, operationName = some n → (∀ d ∈ defs, isOpNamed n d = false) →
      buildExecutionContextM defs operationName varErrors
        = .error [⟨"Unknown operation named \"" ++ n ++ "\".", none⟩]) ∧
    (operationName = none → (∀ d ∈ defs, isOpDef d = false) →
      buildExecutionContextM defs operationName varErrors
        = .error [⟨"Must provide an operation.", none⟩]) ∧
    (∀ op, varErrors ≠ [] → findOperation defs operationName none = .ok op →
      buildExecutionContextM defs operationName varErrors
        = .error (varErrors.take 50) ∧ (varErrors.take 50).length ≤ 50) ∧
    (∀ errs, buildExecutionContextM defs operationName varErrors
        = .error errs →
      executeTop ctx defs operationName varErrors rootName rootTable rootValue
        = .now (.res { errors := errs, data := .absent })) := by
  refine ⟨?_, ?_, ?_, ?_, ?_⟩
  · intro h hn
    subst hn
    rw [buildExecutionContextM, findOperation_multi defs none (by simpa using h)]
  · intro n hn hnone
    subst hn
    rw [buildExecutionContextM, findOperation_unknown n defs hnone]
  · intro hn hnone
    subst hn
    rw [buildExecutionContextM, findOperation_noop defs hnone]
  · intro op hne hfind
    rw [buildExecutionContextM, hfind]
    constructor
    · simp [getVariableValuesM, hne]
    · simp [List.length_take]
  · intro errs herr
    rw [executeTop, herr]



/-- C8 witness -/
theorem claim_C8_witness :
    buildExecutionContextM [DefnNode.operation none .query (.mk [] []),
        .operation none .query (.mk [] [])] none []
      = .error [⟨"Must provide operation name if query contains multiple operations.",
          none⟩] ∧
    buildExecutionContextM [DefnNode.operation none .query (.mk [] [])] none
        [⟨"bad variable", none⟩]
      = .error [⟨"bad variable", none⟩] ∧
    executeTop ⟨"Q"⟩ [] none [] "Q" [] .null
      = .now (.res (ExecResultM.mk [⟨"Must provide an operation.", none⟩]
          .absent)) := by
  have h2 := claim_C8 [DefnNode.operation none .query (.mk [] []),
    .operation none .query (.mk [] [])] none [] ⟨"Q"⟩ "Q" [] .null
  have h1 := claim_C8 [DefnNode.operation none .query (.mk [] [])] none
    [⟨"bad variable", none⟩] ⟨"Q"⟩ "Q" [] .null
  have h0 := claim_C8 ([] : List DefnNode) none [] ⟨"Q"⟩ "Q" [] .null
  refine ⟨h2.1 (by decide) rfl, ?_, ?_⟩
  · exact (h1.2.2.2.1 (.query, .mk [] []) (by simp) rfl).1
  · exact h0.2.2.2.2 _ (h0.2.2.1 rfl (by simp))

/-- Chaining concatenates event streams: the continuation events follow
    the settlement of the first computation. -/
theorem thenB_events (x : BComp α) (k : α → BComp β) :
    (thenB x k).events = x.events ++ (k x.val).events := by
  by_cases h : x.isAsync <;> simp [thenB, BComp.events, h]

/-- The settled value of a chain. -/
theorem thenB_val (x : BComp α) (k : α → BComp β) :
    (thenB x k).val = (k x.val).val := by
  by_cases h : x.isAsync <;> simp [thenB, h]

/-- A chain is a promise when either part is. -/
theorem thenB_isAsync (x : BComp α) (k : α → BComp β) :
    (thenB x k).isAsync = (x.isAsync || (k x.val).isAsync) := by
  by_cases h : x.isAsync <;> simp [thenB, h]

/-- The `promiseReduce` fold appends each field's serial events, result
    entry, and asynchrony in order. -/
theorem serialB_go (fields : List (String × BResolver))
    (acc : BComp (List (String × JVal))) :
    (fields.foldl (fun acc p => thenB acc (fun b =>
        thenB (executeFieldB p.1 p.2)
          (fun v => BComp.pureB (b ++ [(p.1, v)])))) acc).events
      = acc.events ++ serialTrace fields ∧
    (fields.foldl (fun acc p => thenB acc (fun b =>
        thenB (executeFieldB p.1 p.2)
          (fun v => BComp.pureB (b ++ [(p.1, v)])))) acc).val
      = acc.val ++ fields.map (fun p => (p.1, p.2.val)) ∧
    (fields.foldl (fun acc p => thenB acc (fun b =>
        thenB (executeFieldB p.1 p.2)
          (fun v => BComp.pureB (b ++ [(p.1, v)])))) acc).isAsync
      = (acc.isAsync || fields.any fun p => p.2.isAsync) := by
  induction fields generalizing acc with
  | nil => simp [serialTrace]
  | cons p rest ih =>
    rcases ih (thenB acc (fun b =>
      thenB (executeFieldB p.1 p.2)
        (fun v => BComp.pureB (b ++ [(p.1, v)])))) with ⟨he, hv, ha⟩
    refine ⟨?_, ?_, ?_⟩
    · rw [List.foldl_cons, he, thenB_events, thenB_events, serialTrace]
      simp [executeFieldB, BComp.events, BComp.pureB]
    · rw [List.foldl_cons, hv, thenB_val, thenB_val]
      simp [executeFieldB, BComp.pureB]
    · rw [List.foldl_cons, ha, thenB_isAsync, thenB_isAsync]
      simp [executeFieldB, BComp.pureB, Bool.or_assoc]

/-- C6: serial mutation execution.  The event stream of
    `executeFieldsSerially` over the collected root fields is exactly the
    strictly serial trace — each field's resolver invocation follows the
    settlement of the previous field's result, including any future it
    returned; the settled results accumulate under their response names in
    insertion order; and the accumulator is a promise exactly when some
    resolver returned a future. -/
theorem claim_C6 (fields : List (String × BResolver)) :
    (executeFieldsSeriallyB fields).events = serialTrace fields ∧
    (executeFieldsSeriallyB fields).val
      = fields.map (fun p => (p.1, p.2.val)) ∧
    (executeFieldsSeriallyB fields).isAsync
      = fields.any (fun p => p.2.isAsync) := by
  have h := serialB_go fields (BComp.pureB [])
  rcases h with ⟨he, hv, ha⟩
  refine ⟨?_, ?_, ?_⟩
  · simpa [executeFieldsSeriallyB, promiseReduceB, BComp.events,
      BComp.pureB] using he
  · simpa [executeFieldsSeriallyB, promiseReduceB, BComp.pureB] using hv
  · simpa [executeFieldsSeriallyB, promiseReduceB, BComp.pureB] using ha

/-- C9: completing an async-iterator list with a nullable element type:
    a per-element completion failure at index `i` records `null` for that
    element, records the located error via `handleFieldError`, and resolves
    the accumulated inline list immediately — the remaining pulls are
    discarded, so no element after index `i` appears in the initially
    returned list; a successful element is appended and pulling continues;
    the resolved loop result passes through
    `containsPromise ? Promise.all : completedResults`. -/
theorem claim_C9 (ctx : MCtx) (itemType : SType) (cf : CField) (info : InfoM)
    (path : GPath) (v : Raw) (restPulls : List Pull) (index : Nat)
    (acc : List (PV JVal)) (disp : Disp) (errors : List GErr)
    (hstream : cf.stream = none)
    (hnn : isNonNullType itemType = false) :
    (∀ rawError d' er',
      completeValue ctx itemType cf info (addPath path (.idx index) none) v
          disp errors = (.error rawError, d', er') →
      completeAsyncIteratorItems ctx itemType cf info path
          (.yield v :: restPulls) index acc disp errors
        = (some (acc ++ [.ready .null]), d',
           er' ++ [locatedError rawError
             (pathToArray (addPath path (.idx index) none))])) ∧
    (∀ pv d' er',
      completeValue ctx itemType cf info (addPath path (.idx index) none) v
          disp errors = (.ok pv, d', er') →
      completeAsyncIteratorItems ctx itemType cf info path
          (.yield v :: restPulls) index acc disp errors
        = completeAsyncIteratorItems ctx itemType cf info path restPulls
            (index + 1) (acc ++ [pv]) d' er') ∧
    (∀ pulls accR d' er',
      completeAsyncIteratorItems ctx itemType cf info path pulls 0 [] disp
          errors = (some accR, d', er') →
      completeAsyncIteratorValue ctx itemType cf info path pulls disp errors
        = (some (settleAll accR), d', er')) := by
  have hsa : ∀ i : Nat, streamActive (getStreamValues cf.stream) i = false := by
    intro i
    rw [hstream]
    rfl
  refine ⟨?_, ?_, ?_⟩
  · intro rawError d' er' hcv
    rw [completeAsyncIteratorItems]
    simp only [hsa, Bool.false_eq_true, if_false, hcv, handleFieldError, hnn]
  · intro pv d' er' hcv
    rw [completeAsyncIteratorItems]
    simp only [hsa, Bool.false_eq_true, if_false, hcv]
  · intro pulls accR d' er' hloop
    rw [completeAsyncIteratorValue, hloop]



/-- C9 witness -/
theorem claim_C9_witness :
    completeAsyncIteratorItems ⟨"Q"⟩ .leafT (CField.mk "f" "f" none (.mk [] []))
        ⟨"Q", "f"⟩ .nil [.yield (.leaf false "x"), .yield (.leaf true "z")]
        0 [] [] []
      = (some [.ready .null], [],
         [⟨"Expected serialize to return non-nullable value.",
           some [.idx 0]⟩]) := by
  have hcv : completeValue ⟨"Q"⟩ .leafT (CField.mk "f" "f" none (.mk [] []))
      ⟨"Q", "f"⟩ (addPath .nil (.idx 0) none) (.leaf false "x") [] []
      = (.error ⟨"Expected serialize to return non-nullable value.", none⟩,
         [], []) := by
    simp [completeValue, isNullish, completeLeafValue]
  have h := claim_C9 ⟨"Q"⟩ .leafT (CField.mk "f" "f" none (.mk [] []))
    ⟨"Q", "f"⟩ .nil (.leaf false "x") [.yield (.leaf true "z")] 0 [] [] []
    rfl rfl
  simpa [locatedError, pathToArray, addPath] using h.1 _ _ _ hcv

/-- The dispatch loop of streamed elements: each remaining element is handed
    to `Dispatcher.addValue` at its own index, in source iteration order. -/
def foldAddValues (ctx : MCtx) (itemType : SType) (cf : CField)
    (info : InfoM) (path : GPath) (label : Option String) :
    List Raw → Nat → Disp → Disp
  | [], _, disp => disp
  | item :: rest, index, disp =>
    foldAddValues ctx itemType cf info path label rest (index + 1)
      (addValueM ctx itemType cf info (addPath path (.idx index) none) item
        label disp)

theorem streamActive_some {n : Int} {lbl : Option String} {i : Nat} :
    streamActive (some (some n, lbl)) i = decide (n ≤ (i : Int)) := by
  simp [streamActive]

/-- Past the `initialCount` threshold every element is dispatched. -/
theorem claim_C4_dispatch (ctx : MCtx) (itemType : SType) (cf : CField)
    (info : InfoM) (path : GPath) (n : Int) (lbl : Option String) :
    ∀ (items : List Raw) (i : Nat) (disp : Disp) (errors : List GErr),
    n.toNat ≤ i →
    completeListItems ctx itemType cf info path (some (some n, lbl)) items i
        disp errors
      = (.ok [], foldAddValues ctx itemType cf info path lbl items i disp,
         errors) := by
  intro items
  induction items with
  | nil => intro i disp errors hi; rw [completeListItems.eq_1, foldAddValues]
  | cons item rest ih =>
    intro i disp errors hi
    have hact : streamActive (some (some n, lbl)) i = true := by
      rw [streamActive_some]
      simp only [decide_eq_true_eq]
      omega
    rw [completeListItems.eq_2, if_pos hact, foldAddValues]
    have hlbl : streamLabel (some (some n, lbl)) = lbl := rfl
    rw [hlbl]
    exact ih (i + 1) _ errors (by omega)



/-- The element loop under an active stream splits at the threshold:
    the first `initialCount - i` elements run exactly as without a stream,
    the rest are dispatched. -/
theorem claim_C4_split (ctx : MCtx) (itemType : SType) (cf : CField)
    (info : InfoM) (path : GPath) (n : Int) (lbl : Option String) :
    ∀ (items : List Raw) (i : Nat) (disp : Disp) (errors : List GErr),
    i ≤ n.toNat →
    completeListItems ctx itemType cf info path (some (some n, lbl)) items i
        disp errors
      = (match completeListItems ctx itemType cf info path none
            (items.take (n.toNat - i)) i disp errors with
         | (.error e, d, er) => (.error e, d, er)
         | (.ok pvs, d, er) =>
           (.ok pvs,
            foldAddValues ctx itemType cf info path lbl
              (items.drop (n.toNat - i)) n.toNat d, er)) := by
  intro items
  induction items with
  | nil =>
    intro i disp errors hi
    simp only [List.take_nil, List.drop_nil]
    rw [completeListItems.eq_1, completeListItems.eq_1]
    rfl
  | cons item rest ih =>
    intro i disp errors hi
    by_cases hik : i < n.toNat
    · have hact : streamActive (some (some n, lbl)) i = false := by
        rw [streamActive_some]
        simp only [decide_eq_false_iff_not]
        omega
      have htk : (item :: rest).take (n.toNat - i)
          = item :: rest.take (n.toNat - (i + 1)) := by
        have : n.toNat - i = (n.toNat - (i + 1)) + 1 := by omega
        rw [this, List.take_succ_cons]
      have hdr : (item :: rest).drop (n.toNat - i)
          = rest.drop (n.toNat - (i + 1)) := by
        have : n.toNat - i = (n.toNat - (i + 1)) + 1 := by omega
        rw [this, List.drop_succ_cons]
      rw [htk, hdr, completeListItems.eq_2, if_neg (by simp [hact]),
        completeListItems.eq_2]
      have hact0 : streamActive none i = false := rfl
      rw [if_neg (by simp [hact0])]
      rcases h1 : completeOneItem ctx itemType cf info
          (addPath path (Seg.idx i) none) item disp errors with ⟨c, d1, er1⟩
      cases c with
      | error e => rfl
      | ok pv =>
        have hih := ih (i + 1) d1 er1 (by omega)
        simp only [hih]
        rcases h2 : completeListItems ctx itemType cf info path none
            (rest.take (n.toNat - (i + 1))) (i + 1) d1 er1 with ⟨c2, d2, er2⟩
        cases c2 with
        | error e => rfl
        | ok pvs => rfl
    · have hieq : i = n.toNat := by omega
      have hz : n.toNat - i = 0 := by omega
      rw [hz]
      simp only [List.take_zero, List.drop_zero]
      rw [completeListItems.eq_1]
      rw [claim_C4_dispatch ctx itemType cf info path n lbl (item :: rest) i
        disp errors (by omega)]
      rw [hieq]



/-- Without a stream, a successfully returned inline list has one entry per
    element. -/
theorem completeListItems_noStream_length (ctx : MCtx) (itemType : SType)
    (cf : CField) (info : InfoM) (path : GPath) :
    ∀ (items : List Raw) (i : Nat) (disp : Disp) (errors : List GErr)
      (pvs : List (PV JVal)) (d : Disp) (er : List GErr),
    completeListItems ctx itemType cf info path none items i disp errors
      = (.ok pvs, d, er) →
    pvs.length = items.length := by
  intro items
  induction items with
  | nil =>
    intro i disp errors pvs d er h
    rw [completeListItems.eq_1] at h
    simp at h
    simp [h.1]
  | cons item rest ih =>
    intro i disp errors pvs d er h
    rw [completeListItems.eq_2, if_neg (by simp [streamActive])] at h
    rcases h1 : completeOneItem ctx itemType cf info
        (addPath path (Seg.idx i) none) item disp errors with ⟨c, d1, er1⟩
    rw [h1] at h
    cases c with
    | error e => simp at h
    | ok pv =>
      rcases h2 : completeListItems ctx itemType cf info path none rest
          (i + 1) d1 er1 with ⟨c2, d2, er2⟩
      simp only [h2] at h
      cases c2 with
      | error e => simp at h
      | ok pvs2 =>
        simp only [Prod.mk.injEq, Except.ok.injEq] at h
        rcases h with ⟨h3, h4, h5⟩
        rw [← h3]
        simp [ih (i + 1) d1 er1 pvs2 d2 er2 h2]



/-- C4: a list field carrying `@stream(initialCount: n)` (`n ≥ 0`, not
    disabled by `if: false`) over a synchronous iterable: the inline portion
    is exactly the run of the element loop over the first
    `min(n, length)` elements (each completed at `path[index]`, indices from
    `0`), every element at index `≥ n` is handed to `Dispatcher.addValue` as
    its own patch in source iteration order starting at index `n`, and a
    successfully returned inline list has exactly `min(n, length)`
    entries. -/
theorem claim_C4 (ctx : MCtx) (itemType : SType) (cf : CField) (info : InfoM)
    (path : GPath) (items : List Raw) (disp : Disp) (errors : List GErr)
    (n : Int) (iffArg : Option Bool) (lbl : Option String)
    (hstream : cf.stream = some ⟨iffArg, some n, lbl⟩)
    (hiff : iffArg ≠ some false)
    (hn : 0 ≤ n) :
    completeListValue ctx itemType cf info path (.list items) disp errors
      = (match completeListItems ctx itemType cf info path none
            (items.take n.toNat) 0 disp errors with
         | (.error e, d, er) => (.error e, d, er)
         | (.ok pvs, d, er) =>
           (.ok ((combineList pvs).mapv .arr),
            foldAddValues ctx itemType cf info path lbl (items.drop n.toNat)
              n.toNat d, er)) ∧
    (∀ pvs d er,
      completeListItems ctx itemType cf info path none (items.take n.toNat) 0
          disp errors = (.ok pvs, d, er) →
      pvs.length = min n.toNat items.length) := by
  have hgs : getStreamValues cf.stream = some (some n, lbl) := by
    rw [hstream]
    simp [getStreamValues]
    intro hc
    exact absurd hc hiff
  constructor
  · rw [completeListValue.eq_def]
    simp only [hgs]
    have hsplit := claim_C4_split ctx itemType cf info path n lbl items 0
      disp errors (by omega)
    simp only [Nat.sub_zero] at hsplit
    simp only [hsplit]
    rcases hin : completeListItems ctx itemType cf info path none
        (items.take n.toNat) 0 disp errors with ⟨c, d, er⟩
    cases c <;> rfl
  · intro pvs d er h
    have := completeListItems_noStream_length ctx itemType cf info path
      (items.take n.toNat) 0 disp errors pvs d er h
    simpa [List.length_take] using this



/-- C4 witness -/
theorem claim_C4_witness :
    completeListValue ⟨"Query"⟩ .leafT
        (CField.mk "items" "items" (some ⟨none, some 2, none⟩) (.mk [] []))
        ⟨"Query", "items"⟩ .nil
        (.list [.leaf true "1", .leaf true "2", .leaf true "3",
          .leaf true "4"]) [] []
      = (.ok (.ready (.arr [.str "1", .str "2"])),
         [.value [.idx 2] (.ok (.str "3")) [] none,
          .value [.idx 3] (.ok (.str "4")) [] none], []) := by
  have h := claim_C4 ⟨"Query"⟩ .leafT
    (CField.mk "items" "items" (some ⟨none, some 2, none⟩) (.mk [] []))
    ⟨"Query", "items"⟩ .nil
    [.leaf true "1", .leaf true "2", .leaf true "3", .leaf true "4"] [] []
    2 none none rfl (by decide) (by decide)
  have h1 := h.1
  simpa [completeListItems, completeOneItem, completeValue, addValueM,
    foldAddValues, combineList, pvCons, PV.mapv, settleCompletion, PV.settle,
    PV.isPromise, isNullish, completeLeafValue, attachErrorHandler,
    streamActive, getStreamValues, streamLabel, addPath, pathToArray,
    Raw.resolve1, List.take, List.drop] using h1

/-- C2 (amended): for every operation in which no resolver returns a future
    AND no deferred or streamed patch is collected, `execute` returns a
    concrete result — neither a promise nor an async sequence — and
    `executeSync` returns it unchanged; moreover `executeSync` throws
    "GraphQL execution failed to complete synchronously." exactly when
    `execute`'s result is a promise or an async sequence. -/
theorem claim_C2 (ctx : MCtx) (opKind : OpKind) (rootName : String)
    (rootTable : List (String × SType)) (rootSel : CSel) (rootValue : Raw)
    (hroot : rootValue.promFree = true)
    (hsel : CSel.plain rootSel = true) :
    (∃ r, executeWithContext ctx opKind rootName rootTable rootSel rootValue
        = .now (.res r) ∧
      executeSyncM (executeWithContext ctx opKind rootName rootTable rootSel
        rootValue) = .ok r) ∧
    ∀ o : ExecOutM,
      (executeSyncM o =
        .error "GraphQL execution failed to complete synchronously.") ↔
      ∀ r, o ≠ .now (.res r) := by
  constructor
  · obtain ⟨h1, h2⟩ := executeOperation_sync ctx opKind rootName rootTable
      rootSel rootValue [] [] hroot hsel
    rcases hop : executeOperation ctx opKind rootName rootTable rootSel
      rootValue [] [] with ⟨c, d, er⟩
    rw [hop] at h1 h2
    cases c with
    | error e =>
      refine ⟨buildResponse none (er ++ [e]), ?_, ?_⟩ <;>
        simp [executeWithContext, hop, executeSyncM]
    | ok pv =>
      have hpv : pv.isPromise = false := h2 pv rfl
      cases pv with
      | prom s => simp [PV.isPromise] at hpv
      | ready data =>
        have hd : d = ([] : Disp) := h1
        subst hd
        refine ⟨buildResponse (some data) er, ?_, ?_⟩ <;>
          simp [executeWithContext, hop, executeSyncM]
  · intro o
    cases o with
    | now so =>
      cases so with
      | res r =>
        simp only [executeSyncM]
        constructor
        · intro h
          exact absurd h (by simp)
        · intro h
          exact absurd rfl (h r)
      | seq r p =>
        simp only [executeSyncM]
        exact ⟨fun _ r' h => by simp at h, fun _ => trivial⟩
    | later so =>
      simp only [executeSyncM]
      exact ⟨fun _ r' h => by simp at h, fun _ => trivial⟩

/-- The original C2 sentence fails without the no-patch condition: a
    deferred (empty) patch with purely synchronous resolvers still makes
    `execute` return the dispatcher's async sequence, which `executeSync`
    rejects. -/
theorem claim_C2_counterexample :
    Raw.promFree (.obj [("x", .leaf true "a")]) = true ∧
    executeWithContext ⟨"Query"⟩ .query "Query" [("x", .leafT)]
      (.mk [.mk "x" "x" none (.mk [] [])] [.mk none []])
      (.obj [("x", .leaf true "a")]) =
      .now (.seq (ExecResultM.mk [] (.objData [("x", .str "a")]))
        [.fields (.ok (.ready [])) [] none []]) ∧
    executeSyncM (executeWithContext ⟨"Query"⟩ .query "Query"
      [("x", .leafT)] (.mk [.mk "x" "x" none (.mk [] [])] [.mk none []])
      (.obj [("x", .leaf true "a")])) =
      .error "GraphQL execution failed to complete synchronously." := by
  refine ⟨rfl, ?_, ?_⟩ <;>
    simp [executeWithContext, executeOperation, executeFields, executeField,
      completeValue, runSubPatches, collectAndExecuteSubfields, getFieldDef,
      FieldDefM.resolveValue, FieldDefM.type, defaultFieldResolver, alookup,
      runRootPatches, buildResponse, isNullish, completeLeafValue,
      locatedError, handleFieldError, isNonNullType, CField.fname,
      CField.rname, CField.subsel, CField.stream, CSel.fields, CSel.patches,
      CPatch.label, CPatch.fields, addPath, pathToArray, pvCons, PV.mapv,
      PV.isPromise, executeSyncM]

theorem claim_C2_witness :
    Raw.promFree (.obj [("x", .leaf true "a")]) = true ∧
    CSel.plain (.mk [.mk "x" "x" none (.mk [] [])] []) = true ∧
    ((∃ r, executeWithContext ⟨"Query"⟩ .query "Query" [("x", .leafT)]
        (.mk [.mk "x" "x" none (.mk [] [])] [])
        (.obj [("x", .leaf true "a")]) = .now (.res r) ∧
      executeSyncM (executeWithContext ⟨"Query"⟩ .query "Query"
        [("x", .leafT)] (.mk [.mk "x" "x" none (.mk [] [])] [])
        (.obj [("x", .leaf true "a")])) = .ok r) ∧
    ∀ o : ExecOutM,
      (executeSyncM o =
        .error "GraphQL execution failed to complete synchronously.") ↔
      ∀ r, o ≠ .now (.res r)) :=
  ⟨rfl, rfl, claim_C2 ⟨"Query"⟩ .query "Query" [("x", .leafT)]
    (.mk [.mk "x" "x" none (.mk [] [])] [])
    (.obj [("x", .leaf true "a")]) rfl rfl⟩

/-- C1: (i) `handleFieldError` rethrows a located error when the return
    type is Non-Null and otherwise appends it to the given accumulator
    (lines 681–696); (ii) on every single-field chain of object fields in
    which a Non-Null leaf resolves to `null`, the response carries exactly
    one error, whose path is the target field's path, and `data` nulls the
    nearest nullable ancestor of the field; (iii) the data slot is `null`
    exactly when no nullable ancestor exists. -/
theorem claim_C1 :
    (∀ (e : GErr) (ty : SType) (errors : List GErr),
      isNonNullType ty = true → handleFieldError e ty errors = .error e) ∧
    (∀ (e : GErr) (ty : SType) (errors : List GErr),
      isNonNullType ty = false →
        handleFieldError e ty errors = .ok (errors ++ [e])) ∧
    (∀ (fname : String) (spine : List Bool), fname ≠ "__typename" →
      executeWithContext ⟨""⟩ .query "T" (spineTable fname spine)
        (spineSel fname spine) (spineRaw fname spine) =
      .now (.res ⟨[⟨cannotNullMsg fname, some (spineSegs fname spine)⟩],
        spineData fname spine⟩)) ∧
    (∀ (fname : String) (spine : List Bool),
      spineData fname spine = .nullData ↔
        spine.all (fun b => b) = true) := by
  refine ⟨?_, ?_, ?_, ?_⟩
  · intro e ty errors h
    simp [handleFieldError, h]
  · intro e ty errors h
    simp [handleFieldError, h]
  · intro fname spine hf
    have hs := spineStep fname hf spine GPath.nil [] []
    rcases hv : expVal fname spine with _ | v <;>
      simp [executeWithContext, executeOperation, spineSel_fields,
        spineSel_patches, hs, spineOut, hv, spineData, runRootPatches,
        buildResponse, pathToArray]
  · intro fname spine
    induction spine with
    | nil => simp [spineData, expVal]
    | cons nn rest ih =>
      rcases hv : expVal fname rest with _ | v
      · rcases nn with _ | _
        · simp [spineData, expVal, hv]
        · simp [spineData, expVal, hv]
          rw [spineData, hv] at ih
          simpa using ih
      · have hd : spineData fname rest =
            .objData [(spineKey fname rest, v)] := by
          rw [spineData, hv]
        have hra : rest.all (fun b => b) = false := by
          rcases h : rest.all (fun b => b) with _ | _
          · rfl
          · exact absurd (ih.mpr h) (by rw [hd]; simp)
        simp [spineData, expVal, hv, hra]

theorem claim_C1_witness :
    (isNonNullType (.nonNull .leafT) = true ∧
      handleFieldError ⟨"boom", none⟩ (.nonNull .leafT) [] =
        .error ⟨"boom", none⟩) ∧
    (isNonNullType .leafT = false ∧
      handleFieldError ⟨"boom", none⟩ .leafT [] = .ok [⟨"boom", none⟩]) ∧
    (("x" : String) ≠ "__typename" ∧
      executeWithContext ⟨""⟩ .query "T" (spineTable "x" [true, false])
        (spineSel "x" [true, false]) (spineRaw "x" [true, false]) =
      .now (.res ⟨[⟨cannotNullMsg "x",
          some (spineSegs "x" [true, false])⟩],
        spineData "x" [true, false]⟩)) ∧
    spineSegs "x" [true, false] = [.key "o", .key "o", .key "x"] ∧
    spineData "x" [true, false] = .objData [("o", .obj [("o", .null)])] :=
  ⟨⟨rfl, claim_C1.1 ⟨"boom", none⟩ (.nonNull .leafT) [] rfl⟩,
   ⟨rfl, claim_C1.2.1 ⟨"boom", none⟩ .leafT [] rfl⟩,
   ⟨by decide, claim_C1.2.2.1 "x" [true, false] (by decide)⟩,
   rfl, rfl⟩

end GraphQL
